import Mathlib

/-!
# RoboHash: selection, layer ordering and composition

A shallow embedding of `robohash.go`.  Strings are Lean strings (Go compares
strings bytewise, which on UTF-8 text is code point order); a slice is a list;
`int` is a 64-bit integer.  What the Go code takes from outside the package is
either written out from its documented behaviour (`strings.Split`,
`path.Base`, `strconv.Atoi`, `sort.Strings`, the insertion sort that
`sort.Slice` runs on slices of at most twelve elements) or left as a parameter
with its documented contract (`rand.Rand.IntN`, the `pdqsort_func` that
`sort.Slice` runs on longer slices).
-/

namespace Robo

/-! ## Library functions on strings -/

/-- Pieces of a list of characters around every occurrence of `sep`. -/
def splitChars (sep : Char) : List Char → List (List Char)
  | [] => [[]]
  | c :: cs =>
    if c = sep then [] :: splitChars sep cs
    else
      match splitChars sep cs with
      | [] => [[c]]
      | p :: ps => (c :: p) :: ps

/-- Go `strings.Split(s, sep)` for a one-character separator. -/
def stringsSplit (s : String) (sep : Char) : List String :=
  (splitChars sep s.data).map String.mk

/-- Go `strings.HasPrefix(s, ".")`. -/
def hasDotPrefix (s : String) : Bool :=
  match s.data with
  | c :: _ => c == '.'
  | [] => false

/-- A list of characters without its trailing slashes, given reversed. -/
def dropSlashes : List Char → List Char
  | [] => []
  | c :: cs => if c = '/' then dropSlashes cs else c :: cs

/-- The characters before the first slash of a list. -/
def untilSlash : List Char → List Char
  | [] => []
  | c :: cs => if c = '/' then [] else c :: untilSlash cs

/-- Go `path.Base`: the last element of a path, after trailing slashes are
removed; `"."` for the empty path and `"/"` for a path of slashes only. -/
def pathBase (p : String) : String :=
  if p.data = [] then "."
  else
    let r := untilSlash (dropSlashes p.data.reverse)
    if r = [] then "/" else String.mk r.reverse

/-- Go `path.Join(dir, name)` on a clean `dir` and a plain entry name, where
`path.Clean` changes nothing. -/
def pathJoin (dir name : String) : String :=
  dir ++ "/" ++ name

/-- Value of a decimal digit character. -/
def digitVal (c : Char) : Option Nat :=
  if '0' ≤ c ∧ c ≤ '9' then some (c.toNat - '0'.toNat) else none

/-- Value of a list of decimal digits, most significant first, read after the
accumulated value `acc`; `none` when a character is not a digit. -/
def digitsVal : List Char → Nat → Option Nat
  | [], acc => some acc
  | c :: cs, acc =>
    match digitVal c with
    | some d => digitsVal cs (10 * acc + d)
    | none => none

/-- Go `strconv.Atoi` on a 64-bit platform: an optional sign, then at least one
decimal digit and nothing else; a value outside the `int` range is an error. -/
def atoi (s : String) : Option Int :=
  match s.data with
  | [] => none
  | '-' :: ds =>
    if ds = [] then none
    else
      match digitsVal ds 0 with
      | some n => if n ≤ 2 ^ 63 then some (-(n : Int)) else none
      | none => none
  | '+' :: ds =>
    if ds = [] then none
    else
      match digitsVal ds 0 with
      | some n => if n < 2 ^ 63 then some (n : Int) else none
      | none => none
  | ds =>
    match digitsVal ds 0 with
    | some n => if n < 2 ^ 63 then some (n : Int) else none
    | none => none

/-- Lexicographic `<` on lists of characters. -/
def ltChars : List Char → List Char → Bool
  | [], [] => false
  | [], _ :: _ => true
  | _ :: _, [] => false
  | a :: as, b :: bs =>
    if a.toNat < b.toNat then true
    else if b.toNat < a.toNat then false
    else ltChars as bs

/-- Go `a < b` on strings. -/
def strLt (a b : String) : Bool :=
  ltChars a.data b.data

/-- Go `sort.Strings`: the ascending arrangement of the list. -/
def sortStrings (l : List String) : List String :=
  l.insertionSort (fun a b => strLt b a = false)

/-! ## Layer ordering (`getListOfFiles`, lines 257-271) -/

/-- The numeric token the comparator reads from a chosen file: the base name is
split at `#`; with at least two pieces, the second piece is cut at its first
`.` and parsed by `strconv.Atoi`. -/
def numToken (file : String) : Option Int :=
  match stringsSplit (pathBase file) '#' with
  | _ :: p :: _ =>
    match stringsSplit p '.' with
    | numStr :: _ => atoi numStr
    | [] => none
  | _ => none

/-- The `less` closure handed to `sort.Slice`, on the two files it compares. -/
def less (a b : String) : Bool :=
  match numToken a, numToken b with
  | some i, some j => decide (i < j)
  | _, _ => strLt a b

/-- Insertion of `x` at the end of a sorted prefix held in reverse: the inner
loop `for j := i; j > a && less(j, j-1); j-- { swap(j, j-1) }`. -/
def insertBack (lt : String → String → Bool) (x : String) : List String → List String
  | [] => [x]
  | y :: ys => if lt x y then y :: insertBack lt x ys else x :: y :: ys

/-- Go `insertionSort_func`, which `sort.Slice` runs on a slice of at most
twelve elements: the elements are taken left to right and each is moved
towards the front while it is `lt` than its left neighbour. -/
def insertionSortFunc (lt : String → String → Bool) (l : List String) : List String :=
  (l.foldl (fun acc x => insertBack lt x acc) []).reverse

/-- Go `pdqsort_func`, which `sort.Slice` runs on a slice of more than twelve
elements, taken as given with what package `sort` documents: the result is a
rearrangement of the slice, and when `lt` is a strict weak ordering of the
elements of the slice (the requirement on `Less`), no later element of the
result is `lt` than an earlier one. -/
structure Sorter where
  pdqsort : (String → String → Bool) → List String → List String
  perm : ∀ lt l, (pdqsort lt l).Perm l
  sorted : ∀ lt l, (∀ a ∈ l, ∀ b ∈ l, lt a b = true → lt b a = false) →
    (∀ a ∈ l, ∀ b ∈ l, ∀ c ∈ l, lt a b = false → lt b c = false → lt a c = false) →
    (pdqsort lt l).Pairwise (fun a b => lt b a = false)

/-- Go `sort.Slice(chosen, less)`: `pdqsort_func` sorts a slice of at most
twelve elements (`maxInsertion`) by `insertionSort_func`. -/
def sortSlice (srt : Sorter) (lt : String → String → Bool) (l : List String) : List String :=
  if l.length ≤ 12 then insertionSortFunc lt l else srt.pdqsort lt l

/-! ## Failures, the catalog, the generator, images -/

/-- How a call ends when it gives no result: the errors the Go code returns and
the two run-time panics the selection can raise. -/
inductive Failure where
  /-- Error of `parts.ReadDir` on the path. -/
  | readDir (path : String)
  /-- Error text `no files found in <dir>` of `getRandomFile`. -/
  | noFiles (dir : String)
  /-- Error text `no robot parts found in <path>` of `Assemble`. -/
  | noParts (path : String)
  /-- Error of `parts.Open` on the file. -/
  | openFile (file : String)
  /-- Error of `png.Decode` on the file. -/
  | decode (file : String)
  /-- Panic: slice index out of range. -/
  | indexPanic
  /-- Panic: `IntN` called with a bound that is not positive. -/
  | intNPanic
  deriving DecidableEq, Repr

deriving instance DecidableEq for Except

/-- True for the two panics, false for a returned error. -/
def Failure.isPanic : Failure → Bool
  | .indexPanic => true
  | .intNPanic => true
  | _ => false

/-- Go `image.Rectangle`. -/
structure Rectangle where
  minX : Int
  minY : Int
  maxX : Int
  maxY : Int
  deriving DecidableEq, Repr

/-- Go `Rectangle.Dx`. -/
def Rectangle.Dx (r : Rectangle) : Int := r.maxX - r.minX

/-- Go `Rectangle.Dy`. -/
def Rectangle.Dy (r : Rectangle) : Int := r.maxY - r.minY

/-- Compositing operator of `draw.Draw`. -/
inductive Op where
  | over
  | src
  deriving DecidableEq, Repr

/-- An image, written as the operations that produced it.  Decoding, scaling
and blending are used as given capabilities: two images built by the same
operations from the same decoded files have the same pixels. -/
inductive Image where
  /-- Result of `png.Decode`: its bounds and an identifier of its pixels. -/
  | decoded (bounds : Rectangle) (pixels : Nat)
  /-- Result of `image.NewRGBA(r)`: transparent, with bounds `r`. -/
  | newRGBA (r : Rectangle)
  /-- The image `dst` after `draw.ApproxBiLinear.Scale(dst, dst.Bounds(), src,
  src.Bounds(), draw.Over, nil)`. -/
  | scaled (dst src : Image)
  /-- The image `dst` after `draw.Draw(dst, dst.Bounds(), src, image.Point{}, op)`. -/
  | drawn (dst src : Image) (op : Op)
  deriving DecidableEq, Repr

/-- Go `Image.Bounds`: drawing into an image leaves its bounds as they are. -/
def Image.Bounds : Image → Rectangle
  | .decoded b _ => b
  | .newRGBA r => r
  | .scaled dst _ => dst.Bounds
  | .drawn dst _ _ => dst.Bounds

/-- An entry of the embedded file system `parts`: a file, with what
`png.Decode` returns on its bytes (`none` for a decoding error), or a
directory with its entries. -/
inductive Node where
  | file (name : String) (png : Option Image)
  | dir (name : String) (entries : List Node)

/-- Go `DirEntry.Name`. -/
def Node.name : Node → String
  | .file n _ => n
  | .dir n _ => n

/-- Go `DirEntry.IsDir`. -/
def Node.isDir : Node → Bool
  | .file _ _ => false
  | .dir _ _ => true

/-- The first entry of a directory listing with the given name. -/
def findEntry (name : String) : List Node → Option Node
  | [] => none
  | n :: ns => if n.name = name then some n else findEntry name ns

/-- The entry a slash-separated path leads to, from the root listing. -/
def lookupNode : List Node → List String → Option Node
  | _, [] => none
  | es, [c] => findEntry c es
  | es, c :: cs =>
    match findEntry c es with
    | some (.dir _ sub) => lookupNode sub cs
    | _ => none

/-- Go `parts.ReadDir(dirPath)`: the entries of the directory at the path, an
error when the path leads to no directory. -/
def ReadDir (fs : List Node) (dirPath : String) : Except Failure (List Node) :=
  match lookupNode fs (stringsSplit dirPath '/') with
  | some (.dir _ es) => .ok es
  | _ => .error (.readDir dirPath)

/-- Go `parts.Open(file)` followed by `png.Decode`. -/
def openDecode (fs : List Node) (file : String) : Except Failure Image :=
  match lookupNode fs (stringsSplit file '/') with
  | none => .error (.openFile file)
  | some (.file _ (some img)) => .ok img
  | some _ => .error (.decode file)

/-- State of a `rand.PCG`: two 64-bit words. -/
structure PCG where
  hi : Nat
  lo : Nat
  deriving DecidableEq, Repr

/-- A `rand.Rand` over a PCG source.  `draws` is a ghost field: the bounds of
the `IntN` calls made so far, oldest first. -/
structure Rand where
  src : PCG
  draws : List Nat
  deriving DecidableEq, Repr

/-- The generator algorithm of `math/rand/v2`, taken as given: from a source
state and a positive bound `n`, a value below `n` and the next state. -/
structure Source where
  next : PCG → Nat → Nat × PCG
  next_lt : ∀ s n, 0 < n → (next s n).1 < n

/-- Go `r.rd.IntN(n)`: panics unless `n` is positive. -/
def IntN (g : Source) (rd : Rand) (n : Nat) : Except Failure (Nat × Rand) :=
  if n = 0 then .error .intNPanic
  else .ok ((g.next rd.src n).1, { src := (g.next rd.src n).2, draws := rd.draws ++ [n] })

/-- Go `xs[i]`: panics when `i` is out of range. -/
def index (xs : List String) (i : Nat) : Except Failure String :=
  match xs[i]? with
  | some x => .ok x
  | none => .error .indexPanic

/-- Go `hash/fnv` `New64a`, `Write`, `Sum64`: the 64-bit FNV-1a digest. -/
def fnv64a (bytes : List UInt8) : Nat :=
  bytes.foldl (fun h b => ((h ^^^ b.toNat) * 1099511628211) % 2 ^ 64) 14695981039346656037

/-- The `RoboHash` struct. -/
structure RoboHash where
  rd : Rand
  roboSet : String
  bgSet : String
  sets : List String
  bgSets : List String
  colors : List String
  deriving DecidableEq, Repr

/-! ## Catalog reader -/

/-- `listDirs`. -/
def listDirs (fs : List Node) (dirPath : String) : Except Failure (List String) := do
  let entries ← ReadDir fs dirPath
  let dirs := entries.filterMap fun entry =>
    if entry.isDir && !hasDotPrefix entry.name then some entry.name else none
  pure (sortStrings dirs)

/-- `getFilesFromDir`. -/
def getFilesFromDir (fs : List Node) (dirPath : String) : Except Failure (List String) := do
  let entries ← ReadDir fs dirPath
  let files := entries.filterMap fun entry =>
    if !entry.isDir && !hasDotPrefix entry.name then some (pathJoin dirPath entry.name) else none
  pure (sortStrings files)

mutual
/-- The closure `walkFn` of `getAllSubdirectories` on one entry of `dir`: a
directory whose name does not start with a dot is recorded and then walked.
`parts.ReadDir(sub)` on a listed directory gives that directory's entries, so
the walk descends the tree. -/
def walkEntry (dir : String) : Node → List String
  | .file _ _ => []
  | .dir name sub =>
    if hasDotPrefix (pathBase (pathJoin dir name)) then []
    else pathJoin dir name :: walkFn (pathJoin dir name) sub
/-- The closure `walkFn` of `getAllSubdirectories` on the entries of `dir`,
giving the directories appended, in the order of the appends. -/
def walkFn (dir : String) : List Node → List String
  | [] => []
  | entry :: rest => walkEntry dir entry ++ walkFn dir rest
end

/-- `getAllSubdirectories`. -/
def getAllSubdirectories (fs : List Node) (basePath : String) : Except Failure (List String) := do
  let entries ← ReadDir fs basePath
  pure (sortStrings (walkFn basePath entries))

/-! ## Construction -/

/-- `New`: the generator is seeded from the FNV-1a digest of the identifier and
the three catalog listings are read. -/
def New (fs : List Node) (hash : List UInt8) (roboSet bgSet : String) : Except Failure RoboHash := do
  let h := fnv64a hash
  let rd : Rand := { src := { hi := h, lo := (h >>> 1) ||| 1 }, draws := [] }
  let sets ← listDirs fs "parts/sets"
  let bgSets ← listDirs fs "parts/backgrounds"
  let colors ← listDirs fs "parts/sets/set1"
  pure { rd := rd, roboSet := roboSet, bgSet := bgSet, sets := sets, bgSets := bgSets, colors := colors }

/-! ## Selection -/

/-- `getRandomFile`, with the generator passed through. -/
def getRandomFile (g : Source) (fs : List Node) (rd : Rand) (dirPath : String) :
    Except Failure (String × Rand) := do
  let files ← getFilesFromDir fs dirPath
  if files.length = 0 then
    throw (.noFiles dirPath)
  else
    let (i, rd) ← IntN g rd files.length
    let file ← index files i
    pure (file, rd)

/-- Lines 238-246 of `getListOfFiles`: the category directories, the base path
first when it lists at least one file. -/
def categoryDirs (fs : List Node) (basePath : String) : Except Failure (List String) := do
  let directories ← getAllSubdirectories fs basePath
  match getFilesFromDir fs basePath with
  | .ok base => if base.length > 0 then pure (basePath :: directories) else pure directories
  | .error _ => pure directories

/-- Lines 248-255 of `getListOfFiles`: one file drawn from each directory in
turn, the first error ending the loop. -/
def chooseFiles (g : Source) (fs : List Node) : List String → Rand → Except Failure (List String × Rand)
  | [], rd => pure ([], rd)
  | dir :: rest, rd => do
    let (file, rd) ← getRandomFile g fs rd dir
    let (chosen, rd) ← chooseFiles g fs rest rd
    pure (file :: chosen, rd)

/-- `getListOfFiles`, with the generator passed through. -/
def getListOfFiles (g : Source) (srt : Sorter) (fs : List Node) (rd : Rand) (basePath : String) :
    Except Failure (List String × Rand) := do
  let directories ← categoryDirs fs basePath
  let (chosen, rd) ← chooseFiles g fs directories rd
  pure (sortSlice srt less chosen, rd)

/-- Lines 56-69 of `Assemble`: the avatar set is resolved. -/
def resolveSet (g : Source) (r : RoboHash) : Except Failure RoboHash :=
  if r.roboSet = "any" then do
    let (i, rd) ← IntN g r.rd r.sets.length
    let s ← index r.sets i
    pure { r with rd := rd, roboSet := s }
  else if r.sets.contains r.roboSet then
    pure r
  else do
    let s ← index r.sets 0
    pure { r with roboSet := s }

/-- Lines 71-75 of `Assemble`: a colour is drawn for `set1`. -/
def resolveColor (g : Source) (r : RoboHash) : Except Failure RoboHash :=
  if r.roboSet = "set1" then do
    let (i, rd) ← IntN g r.rd r.colors.length
    let color ← index r.colors i
    pure { r with rd := rd, roboSet := "set1/" ++ color }
  else
    pure r

/-- Lines 77-90 of `Assemble`: the background set is resolved; the flag is
`bgFound`. -/
def resolveBackground (g : Source) (r : RoboHash) : Except Failure (RoboHash × Bool) :=
  let bgFound := r.bgSet != "" && r.bgSets.contains r.bgSet
  if !bgFound && r.bgSet = "any" then do
    let (i, rd) ← IntN g r.rd r.bgSets.length
    let b ← index r.bgSets i
    pure ({ r with rd := rd, bgSet := b }, true)
  else
    pure (r, bgFound)

/-- Lines 98-109 of `Assemble`: the background file, `""` for none. -/
def chooseBackground (g : Source) (fs : List Node) (r : RoboHash) (bgFound : Bool) :
    Except Failure (String × RoboHash) :=
  if bgFound then do
    let bgFiles ← getFilesFromDir fs (pathJoin "parts/backgrounds" r.bgSet)
    if bgFiles.length > 0 then
      let (i, rd) ← IntN g r.rd bgFiles.length
      let background ← index bgFiles i
      pure (background, { r with rd := rd })
    else
      pure ("", r)
  else
    pure ("", r)

/-- What lines 56-109 of `Assemble` leave behind: the instance as mutated, the
foreground files in layer order and the background file. -/
structure Selection where
  robo : RoboHash
  roboParts : List String
  background : String
  deriving DecidableEq, Repr

/-- Lines 56-90 of `Assemble`: set, colour and background set are resolved. -/
def resolve (g : Source) (r : RoboHash) : Except Failure (RoboHash × Bool) := do
  let r ← resolveSet g r
  let r ← resolveColor g r
  resolveBackground g r

/-- Lines 56-109 of `Assemble`. -/
def select (g : Source) (srt : Sorter) (fs : List Node) (r : RoboHash) :
    Except Failure Selection := do
  let (r, bgFound) ← resolve g r
  let (roboParts, rd) ← getListOfFiles g srt fs r.rd (pathJoin "parts/sets" r.roboSet)
  let r := { r with rd := rd }
  let (background, r) ← chooseBackground g fs r bgFound
  pure { robo := r, roboParts := roboParts, background := background }

/-! ## Composition -/

/-- Go `image.Rect(0, 0, 1024, 1024)`. -/
def canvasRect : Rectangle := { minX := 0, minY := 0, maxX := 1024, maxY := 1024 }

/-- `resizeImage`. -/
def resizeImage (img : Image) (width height : Int) : Image :=
  let bounds := img.Bounds
  if bounds.Dx = width ∧ bounds.Dy = height then img
  else .scaled (.newRGBA { minX := 0, minY := 0, maxX := width, maxY := height }) img

/-- Lines 116-130 of `Assemble`: every part is decoded, resized and drawn over
the canvas, in list order. -/
def drawParts (fs : List Node) : List String → Image → Except Failure Image
  | [], roboImg => pure roboImg
  | part :: rest, roboImg => do
    let partImg ← openDecode fs part
    let resizedPart := resizeImage partImg 1024 1024
    drawParts fs rest (.drawn roboImg resizedPart .over)

/-- Lines 111-152 of `Assemble`. -/
def compose (fs : List Node) (sel : Selection) : Except Failure Image := do
  if sel.roboParts.length = 0 then
    throw (.noParts (pathJoin "parts/sets" sel.robo.roboSet))
  else
    let roboImg ← drawParts fs sel.roboParts (.newRGBA canvasRect)
    if sel.background != "" then
      let bgImg ← openDecode fs sel.background
      let resizedBg := resizeImage bgImg 1024 1024
      let finalImg := Image.drawn (.newRGBA canvasRect) resizedBg .src
      pure (.drawn finalImg roboImg .over)
    else
      pure roboImg

/-- `Assemble`. -/
def Assemble (g : Source) (srt : Sorter) (fs : List Node) (r : RoboHash) :
    Except Failure Image := do
  let sel ← select g srt fs r
  compose fs sel

/-! ## A small catalog and a generator for evaluation -/

/-- A generator that reads the low word as mixed-radix digits. -/
def digitSource : Source where
  next s n := (s.lo % n, { hi := s.hi, lo := s.lo / n })
  next_lt := fun s _ hn => Nat.mod_lt s.lo hn

/-- A sorter for evaluation: an insertion sort over the elements of the
slice. -/
def demoSorter : Sorter where
  pdqsort lt l := (l.attach.insertionSort fun a b => lt b.1 a.1 = false).map Subtype.val
  perm lt l := by
    have h := (List.perm_insertionSort (fun a b : { x // x ∈ l } => lt b.1 a.1 = false) l.attach).map
      Subtype.val
    rwa [List.attach_map_subtype_val] at h
  sorted lt l hasym hneg := by
    rw [List.pairwise_map]
    exact @List.sorted_insertionSort { x // x ∈ l } (fun a b => lt b.1 a.1 = false) _
      ⟨fun a b => by
        cases h : lt b.1 a.1 with
        | false => exact Or.inl rfl
        | true => exact Or.inr (hasym b.1 b.2 a.1 a.2 h)⟩
      ⟨fun a b c hab hbc => hneg c.1 c.2 b.1 b.2 a.1 a.2 hbc hab⟩ l.attach

/-- A decoded picture of the given size. -/
def pic (w h : Int) (pixels : Nat) : Option Image :=
  some (.decoded { minX := 0, minY := 0, maxX := w, maxY := h } pixels)

/-- A catalog with two sets, two colours and one background set. -/
def demoFS : List Node :=
  [.dir "parts"
    [.dir "sets"
      [.dir "set1"
        [.dir "blue"
          [.dir "000#Mouth" [.file "000#2.png" (pic 300 300 1), .file "001#7.png" (pic 300 300 2)],
           .dir "001#Eyes" [.file "000#1.png" (pic 1024 1024 3)]],
         .dir "red"
          [.dir "000#Mouth" [.file "000#2.png" (pic 300 300 4)],
           .dir "001#Eyes" [.file "000#1.png" (pic 300 300 5)]]],
       .dir "set2"
        [.dir "body" [.file "b.png" (pic 512 512 6)],
         .dir ".git" [],
         .file "readme.png" (pic 10 10 7)]],
     .dir "backgrounds"
      [.dir "bg1" [.file "x.png" (pic 1024 1024 8), .file "y.png" (pic 640 480 9)]]]]

/-- A catalog whose first set in sorted order is named `any`. -/
def anyFS : List Node :=
  [.dir "parts"
    [.dir "sets"
      [.dir "any" [.dir "body" [.file "a.png" (pic 1024 1024 1)]],
       .dir "set1" [.dir "blue" [.dir "body" [.file "b.png" (pic 1024 1024 2)]]]],
     .dir "backgrounds" []]]

/-- A catalog whose only set has a category without files. -/
def emptyCategoryFS : List Node :=
  [.dir "parts"
    [.dir "sets"
      [.dir "set2"
        [.dir "body" [.file "b.png" (pic 512 512 1)],
         .dir "eyes" [.file ".hidden" none]]],
     .dir "backgrounds" []]]

/-- The image `Assemble` returns on the demo catalog for set `set2` without a
background: two scaled parts drawn over the blank canvas. -/
def demoImage : Image :=
  .drawn
    (.drawn (.newRGBA canvasRect)
      (.scaled (.newRGBA canvasRect) (.decoded { minX := 0, minY := 0, maxX := 512, maxY := 512 } 6))
      .over)
    (.scaled (.newRGBA canvasRect) (.decoded { minX := 0, minY := 0, maxX := 10, maxY := 10 } 7))
    .over

/-- Number of files `getFilesFromDir` lists in a directory, zero when the
directory cannot be read. -/
def fileCount (fs : List Node) (dir : String) : Nat :=
  match getFilesFromDir fs dir with
  | .ok files => files.length
  | .error _ => 0

/-- Lines 56-96 of `Assemble`: set, colour and background set are resolved
and the foreground files are chosen; the result is `roboParts` and the
generator after the foreground draws. -/
def foreground (g : Source) (srt : Sorter) (fs : List Node) (r : RoboHash) :
    Except Failure (List String × Rand) := do
  let (r, _) ← resolve g r
  getListOfFiles g srt fs r.rd (pathJoin "parts/sets" r.roboSet)

/-- A name an entry of the embedded file system can have: not empty and
without a slash. -/
def validName (n : String) : Bool :=
  n.data != [] && !n.data.contains '/'

mutual
/-- An entry all of whose names, at every depth, are valid and differ between
entries of one directory. -/
def validNode : Node → Bool
  | .file n _ => validName n
  | .dir n es => validName n && validEntries es
/-- A directory listing of valid entries with pairwise different names. -/
def validEntries : List Node → Bool
  | [] => true
  | e :: es => validNode e && !(es.any fun x => x.name == e.name) && validEntries es
end

/-- The chain of names `comps` leads from a directory listing down through
nested directories: the descendant directories of the listed directory, each
given by its path components below it. -/
def SubdirAt : List Node → List String → Prop
  | _, [] => False
  | es, [c] => ∃ sub, Node.dir c sub ∈ es
  | es, c :: c' :: cs => ∃ sub, Node.dir c sub ∈ es ∧ SubdirAt sub (c' :: cs)

/-- The full path of the descendant with components `comps` below `dir`. -/
def joinAll (dir : String) (comps : List String) : String :=
  comps.foldl pathJoin dir

/-- The characters `joinAll` appends to the path of the directory: a slash
and the name, for every component. -/
def tailChars : List String → List Char
  | [] => []
  | c :: cs => '/' :: c.data ++ tailChars cs

/-- The characters after the first occurrence of `sep`, if there is one. -/
def afterChar (sep : Char) : List Char → Option (List Char)
  | [] => none
  | c :: cs => if c = sep then some cs else afterChar sep cs

/-- The characters before the first occurrence of `sep`. -/
def untilChar (sep : Char) : List Char → List Char
  | [] => []
  | c :: cs => if c = sep then [] else c :: untilChar sep cs

/-- The numeric token as the specification describes it: the text of the base
name after the first `#` up to the next `.`, read as a decimal integer. -/
def specToken (file : String) : Option Int :=
  match afterChar '#' (pathBase file).data with
  | none => none
  | some rest => atoi (String.mk (untilChar '.' rest))

/-- A catalog in which the sorted order of the subdirectories of `parts/sets`
differs from the order of the walk. -/
def dashFS : List Node :=
  [.dir "parts" [.dir "sets" [.dir "a" [.dir "b" []], .dir "a-b" [], .dir ".x" [.dir "y" []]]]]

/-- A catalog whose background set `bg0` has no visible file. -/
def emptyBgFS : List Node :=
  [.dir "parts"
    [.dir "sets" [.dir "set2" [.dir "body" [.file "b.png" (pic 512 512 1)]]],
     .dir "backgrounds" [.dir "bg0" [.file ".keep" none]]]]

/-! ## Facts about the comparator and the insertion sort -/

theorem ltChars_asymm : ∀ a b : List Char, ltChars a b = true → ltChars b a = false
  | [], [], h => by simp [ltChars] at h
  | [], _ :: _, _ => by simp [ltChars]
  | _ :: _, [], h => by simp [ltChars] at h
  | a :: as, b :: bs, h => by
    simp only [ltChars] at h ⊢
    by_cases h1 : a.toNat < b.toNat
    · have h2 : ¬ b.toNat < a.toNat := by omega
      simp [h1, h2]
    · by_cases h2 : b.toNat < a.toNat
      · simp [h1, h2] at h
      · simp only [h1, h2, if_false] at h ⊢
        exact ltChars_asymm as bs h

theorem less_asymm (a b : String) (h : less a b = true) : less b a = false := by
  unfold less at h ⊢
  cases ha : numToken a <;> cases hb : numToken b <;> simp only [ha, hb] at h ⊢
  · exact ltChars_asymm _ _ h
  · exact ltChars_asymm _ _ h
  · exact ltChars_asymm _ _ h
  · simp only [decide_eq_true_eq, decide_eq_false_iff_not] at h ⊢
    omega

theorem insertBack_perm (lt : String → String → Bool) (x : String) :
    ∀ acc : List String, (insertBack lt x acc).Perm (x :: acc)
  | [] => List.Perm.refl _
  | y :: ys => by
    simp only [insertBack]
    split
    · exact ((insertBack_perm lt x ys).cons y).trans (List.Perm.swap x y ys)
    · exact List.Perm.refl _

theorem foldl_insertBack_perm (lt : String → String → Bool) :
    ∀ (l acc : List String), (l.foldl (fun acc x => insertBack lt x acc) acc).Perm (l ++ acc)
  | [], acc => List.Perm.refl _
  | x :: xs, acc => by
    simp only [List.foldl_cons]
    refine (foldl_insertBack_perm lt xs (insertBack lt x acc)).trans ?_
    refine ((insertBack_perm lt x acc).append_left xs).trans ?_
    simp

theorem insertionSortFunc_perm (lt : String → String → Bool) (l : List String) :
    (insertionSortFunc lt l).Perm l := by
  unfold insertionSortFunc
  refine (List.reverse_perm _).trans ?_
  simpa using foldl_insertBack_perm lt l []

theorem insertBack_pairwise (lt : String → String → Bool) (S : String → Prop)
    (hasym : ∀ a b, S a → S b → lt a b = true → lt b a = false)
    (hneg : ∀ a b c, S a → S b → S c → lt a b = false → lt b c = false → lt a c = false)
    (x : String) (hx : S x) :
    ∀ acc : List String, (∀ a ∈ acc, S a) → acc.Pairwise (fun a b => lt a b = false) →
      (insertBack lt x acc).Pairwise (fun a b => lt a b = false)
  | [], _, _ => by simp [insertBack]
  | y :: ys, hS, hp => by
    have hy : S y := hS y (List.mem_cons_self _ _)
    have hys : ∀ a ∈ ys, S a := fun a ha => hS a (List.mem_cons_of_mem _ ha)
    rw [List.pairwise_cons] at hp
    simp only [insertBack]
    by_cases hxy : lt x y = true
    · simp only [hxy, if_true]
      rw [List.pairwise_cons]
      refine ⟨?_, insertBack_pairwise lt S hasym hneg x hx ys hys hp.2⟩
      intro z hz
      have hz2 : z ∈ x :: ys := (insertBack_perm lt x ys).mem_iff.mp hz
      rcases List.mem_cons.mp hz2 with rfl | hz3
      · exact hasym _ _ hx hy hxy
      · exact hp.1 z hz3
    · have hxy2 : lt x y = false := by simpa using hxy
      simp only [hxy2, Bool.false_eq_true, if_false]
      rw [List.pairwise_cons]
      refine ⟨?_, List.pairwise_cons.mpr hp⟩
      intro z hz
      rcases List.mem_cons.mp hz with rfl | hz3
      · exact hxy2
      · exact hneg x y z hx hy (hys z hz3) hxy2 (hp.1 z hz3)

theorem foldl_insertBack_pairwise (lt : String → String → Bool) (S : String → Prop)
    (hasym : ∀ a b, S a → S b → lt a b = true → lt b a = false)
    (hneg : ∀ a b c, S a → S b → S c → lt a b = false → lt b c = false → lt a c = false) :
    ∀ (l acc : List String), (∀ a ∈ l, S a) → (∀ a ∈ acc, S a) →
      acc.Pairwise (fun a b => lt a b = false) →
      (l.foldl (fun acc x => insertBack lt x acc) acc).Pairwise (fun a b => lt a b = false)
  | [], _, _, _, hp => hp
  | x :: xs, acc, hl, hacc, hp => by
    simp only [List.foldl_cons]
    have hx : S x := hl x (List.mem_cons_self _ _)
    refine foldl_insertBack_pairwise lt S hasym hneg xs _
      (fun a ha => hl a (List.mem_cons_of_mem _ ha)) ?_
      (insertBack_pairwise lt S hasym hneg x hx acc hacc hp)
    intro a ha
    rcases List.mem_cons.mp ((insertBack_perm lt x acc).mem_iff.mp ha) with rfl | h
    · exact hx
    · exact hacc a h

/-- On a list whose elements the comparator treats as a strict weak order, the
insertion sort leaves no later element `lt` than an earlier one. -/
theorem insertionSortFunc_pairwise (lt : String → String → Bool) (S : String → Prop)
    (hasym : ∀ a b, S a → S b → lt a b = true → lt b a = false)
    (hneg : ∀ a b c, S a → S b → S c → lt a b = false → lt b c = false → lt a c = false)
    (l : List String) (hl : ∀ a ∈ l, S a) :
    (insertionSortFunc lt l).Pairwise (fun a b => lt b a = false) := by
  unfold insertionSortFunc
  rw [List.pairwise_reverse]
  exact foldl_insertBack_pairwise lt S hasym hneg l [] hl (by simp) List.Pairwise.nil

theorem sortSlice_short (srt : Sorter) (lt : String → String → Bool) (l : List String)
    (h : l.length ≤ 12) : sortSlice srt lt l = insertionSortFunc lt l := by
  unfold sortSlice
  rw [if_pos h]

theorem sortSlice_perm (srt : Sorter) (lt : String → String → Bool) (l : List String) :
    (sortSlice srt lt l).Perm l := by
  unfold sortSlice
  split
  · exact insertionSortFunc_perm lt l
  · exact srt.perm lt l

/-- On a list whose elements the comparator treats as a strict weak order,
`sort.Slice` leaves no later element `lt` than an earlier one, whatever the
length of the list. -/
theorem sortSlice_pairwise (srt : Sorter) (lt : String → String → Bool) (S : String → Prop)
    (hasym : ∀ a b, S a → S b → lt a b = true → lt b a = false)
    (hneg : ∀ a b c, S a → S b → S c → lt a b = false → lt b c = false → lt a c = false)
    (l : List String) (hl : ∀ a ∈ l, S a) :
    (sortSlice srt lt l).Pairwise (fun a b => lt b a = false) := by
  unfold sortSlice
  split
  · exact insertionSortFunc_pairwise lt S hasym hneg l hl
  · exact srt.sorted lt l (fun a ha b hb => hasym a b (hl a ha) (hl b hb))
      (fun a ha b hb c hc => hneg a b c (hl a ha) (hl b hb) (hl c hc))

/-- Two arrangements of the same elements, both without a later element `lt`
than an earlier one, are equal when distinct elements are always comparable. -/
theorem eq_of_perm_of_pairwise (lt : String → String → Bool) :
    ∀ (l₁ l₂ : List String), l₁.Perm l₂ →
      (∀ a ∈ l₁, ∀ b ∈ l₁, a ≠ b → lt a b = true ∨ lt b a = true) →
      l₁.Pairwise (fun a b => lt b a = false) → l₂.Pairwise (fun a b => lt b a = false) →
      l₁ = l₂
  | [], l₂, hp, _, _, _ => (List.Perm.nil_eq hp)
  | a :: t₁, [], hp, _, _, _ => absurd hp.symm (List.not_perm_nil_cons _ _)
  | a :: t₁, b :: t₂, hp, htri, h₁, h₂ => by
    rw [List.pairwise_cons] at h₁ h₂
    have hab : a = b := by
      by_contra hne
      have ha : a ∈ t₂ := by
        have : a ∈ b :: t₂ := hp.mem_iff.mp (List.mem_cons_self _ _)
        rcases List.mem_cons.mp this with h | h
        · exact absurd h hne
        · exact h
      have hb : b ∈ t₁ := by
        have : b ∈ a :: t₁ := hp.mem_iff.mpr (List.mem_cons_self _ _)
        rcases List.mem_cons.mp this with h | h
        · exact absurd h.symm hne
        · exact h
      have n1 := h₁.1 b hb
      have n2 := h₂.1 a ha
      rcases htri a (List.mem_cons_self _ _) b (List.mem_cons_of_mem _ hb) hne with h | h
      · rw [n2] at h; exact Bool.false_ne_true h
      · rw [n1] at h; exact Bool.false_ne_true h
    subst hab
    have hp2 : t₁.Perm t₂ := List.Perm.cons_inv hp
    have := eq_of_perm_of_pairwise lt t₁ t₂ hp2
      (fun x hx y hy => htri x (List.mem_cons_of_mem _ hx) y (List.mem_cons_of_mem _ hy)) h₁.2 h₂.2
    rw [this]

theorem getListOfFiles_eq (g : Source) (srt : Sorter) (fs : List Node) (rd rd' : Rand) (basePath : String)
    (dirs chosen : List String) (hd : categoryDirs fs basePath = .ok dirs)
    (hc : chooseFiles g fs dirs rd = .ok (chosen, rd')) :
    getListOfFiles g srt fs rd basePath = .ok (sortSlice srt less chosen, rd') := by
  simp [getListOfFiles, hd, hc, bind, Except.bind, pure, Except.pure]

/-! ## Layer ordering: the claims -/

/-- C8, as amended: when at least one of the two compared files has no
parseable numeric token in its base name, the comparator of the layer-ordering
sort is the plain lexicographic comparison of the two full paths, directories
included. -/
theorem less_without_token_compares_paths (a b : String)
    (h : numToken a = none ∨ numToken b = none) : less a b = strLt a b := by
  unfold less
  rcases h with h | h
  · simp [h]
  · cases ha : numToken a <;> simp [h]

/-- Witness of C8: two files without a token, in different directories. -/
theorem less_without_token_compares_paths_witness :
    (numToken "p/z/x.png" = none ∨ numToken "p/a/y.png" = none) ∧
      less "p/z/x.png" "p/a/y.png" = strLt "p/z/x.png" "p/a/y.png" :=
  ⟨by decide, less_without_token_compares_paths "p/z/x.png" "p/a/y.png" (by decide)⟩

/-- Counterexample to C8 as stated: neither file has a token and the base name
`x.png` is below `y.png`, yet the comparator puts `p/a/y.png` first, and so
does `sort.Slice`, which sorts two elements by insertion whatever the sorter
for long slices is. -/
theorem less_without_token_not_base_names :
    numToken "p/z/x.png" = none ∧ numToken "p/a/y.png" = none ∧
      strLt (pathBase "p/z/x.png") (pathBase "p/a/y.png") = true ∧
      less "p/z/x.png" "p/a/y.png" = false ∧
      less "p/a/y.png" "p/z/x.png" = true ∧
      sortSlice demoSorter less ["p/z/x.png", "p/a/y.png"] = ["p/a/y.png", "p/z/x.png"] ∧
      ∀ srt : Sorter,
        sortSlice srt less ["p/z/x.png", "p/a/y.png"] = ["p/a/y.png", "p/z/x.png"] :=
  ⟨by decide, by decide, by decide, by decide, by decide, by decide,
    fun srt => (sortSlice_short srt less _ (by decide)).trans (by decide)⟩

/-- C9, as amended: on a list of chosen files that the comparator orders
strictly and totally (any two distinct files are comparable, and the
comparison is transitive on the list), the layer-ordering sort returns the
same sequence for every permutation of the list, whatever the length of the
list: by insertion up to twelve files, by `pdqsort_func` beyond. -/
theorem layer_order_of_permutation (srt : Sorter) (l l' : List String) (hperm : l.Perm l')
    (htri : ∀ a ∈ l, ∀ b ∈ l, a ≠ b → less a b = true ∨ less b a = true)
    (htrans : ∀ a ∈ l, ∀ b ∈ l, ∀ c ∈ l, less a b = true → less b c = true → less a c = true) :
    sortSlice srt less l = sortSlice srt less l' := by
  have hasym : ∀ a b, a ∈ l → b ∈ l → less a b = true → less b a = false :=
    fun a b _ _ h => less_asymm a b h
  have hneg : ∀ a b c, a ∈ l → b ∈ l → c ∈ l →
      less a b = false → less b c = false → less a c = false := by
    intro a b c ha hb hc hab hbc
    by_contra hac
    have hac : less a c = true := by simpa using hac
    by_cases e1 : a = b
    · subst e1; rw [hbc] at hac; exact Bool.false_ne_true hac
    by_cases e2 : b = c
    · subst e2; rw [hab] at hac; exact Bool.false_ne_true hac
    have hba : less b a = true := by
      rcases htri a ha b hb e1 with h | h
      · rw [hab] at h; exact absurd h Bool.false_ne_true
      · exact h
    have hcb : less c b = true := by
      rcases htri b hb c hc e2 with h | h
      · rw [hbc] at h; exact absurd h Bool.false_ne_true
      · exact h
    have hca : less c a = true := htrans c hc b hb a ha hcb hba
    have := less_asymm a c hac
    rw [this] at hca
    exact Bool.false_ne_true hca
  have h1 := sortSlice_pairwise srt less (fun x => x ∈ l) hasym hneg l (fun a ha => ha)
  have h2 := sortSlice_pairwise srt less (fun x => x ∈ l) hasym hneg l'
    (fun a ha => hperm.mem_iff.mpr ha)
  have hp : (sortSlice srt less l).Perm (sortSlice srt less l') :=
    ((sortSlice_perm srt less l).trans hperm).trans (sortSlice_perm srt less l').symm
  refine eq_of_perm_of_pairwise less _ _ hp ?_ h1 h2
  intro a ha b hb
  exact htri a ((sortSlice_perm srt less l).mem_iff.mp ha) b ((sortSlice_perm srt less l).mem_iff.mp hb)

/-- Witness of C9: thirteen files with distinct tokens, visited in two
orders; the list is long enough to be sorted by the sorter for long slices. -/
theorem layer_order_of_permutation_witness :
    sortSlice demoSorter less
      ["c00/a#13.png", "c01/a#12.png", "c02/a#11.png", "c03/a#10.png", "c04/a#9.png",
        "c05/a#8.png", "c06/a#7.png", "c07/a#6.png", "c08/a#5.png", "c09/a#4.png", "c10/a#3.png",
        "c11/a#2.png", "c12/a#1.png"] =
    sortSlice demoSorter less
      ["c12/a#1.png", "c00/a#13.png", "c01/a#12.png", "c02/a#11.png", "c03/a#10.png",
        "c04/a#9.png", "c05/a#8.png", "c06/a#7.png", "c07/a#6.png", "c08/a#5.png", "c09/a#4.png",
        "c10/a#3.png", "c11/a#2.png"] :=
  layer_order_of_permutation demoSorter
    ["c00/a#13.png", "c01/a#12.png", "c02/a#11.png", "c03/a#10.png", "c04/a#9.png",
        "c05/a#8.png", "c06/a#7.png", "c07/a#6.png", "c08/a#5.png", "c09/a#4.png", "c10/a#3.png",
        "c11/a#2.png", "c12/a#1.png"]
    ["c12/a#1.png", "c00/a#13.png", "c01/a#12.png", "c02/a#11.png", "c03/a#10.png",
        "c04/a#9.png", "c05/a#8.png", "c06/a#7.png", "c07/a#6.png", "c08/a#5.png", "c09/a#4.png",
        "c10/a#3.png", "c11/a#2.png"]
    (by decide) (by decide) (by decide)

/-- Counterexample to C9 as stated: two files of different categories with
the same token keep the order in which they were visited; two elements are
sorted by insertion whatever the sorter for long slices is. -/
theorem layer_order_depends_on_visit_order :
    List.Perm ["c1/a#1.png", "c2/b#1.png"] ["c2/b#1.png", "c1/a#1.png"] ∧
      sortSlice demoSorter less ["c1/a#1.png", "c2/b#1.png"] = ["c1/a#1.png", "c2/b#1.png"] ∧
      sortSlice demoSorter less ["c2/b#1.png", "c1/a#1.png"] = ["c2/b#1.png", "c1/a#1.png"] ∧
      sortSlice demoSorter less ["c1/a#1.png", "c2/b#1.png"] ≠
        sortSlice demoSorter less ["c2/b#1.png", "c1/a#1.png"] ∧
      ∀ srt : Sorter,
        sortSlice srt less ["c1/a#1.png", "c2/b#1.png"] ≠
          sortSlice srt less ["c2/b#1.png", "c1/a#1.png"] :=
  ⟨by decide, by decide, by decide, by decide, fun srt => by
    rw [sortSlice_short srt less _ (by decide), sortSlice_short srt less _ (by decide)]
    decide⟩

/-- C10: when every file drawn by `getListOfFiles` has a parseable numeric
token in its base name, `getListOfFiles` returns these files rearranged so
that the tokens are in non-decreasing order, for any number of files (sorted
by insertion up to twelve, by `pdqsort_func` beyond). -/
theorem layers_sorted_by_token (g : Source) (srt : Sorter) (fs : List Node) (rd rd' : Rand)
    (basePath : String)
    (dirs chosen : List String) (hd : categoryDirs fs basePath = .ok dirs)
    (hc : chooseFiles g fs dirs rd = .ok (chosen, rd'))
    (htok : ∀ f ∈ chosen, numToken f ≠ none) :
    ∃ files, getListOfFiles g srt fs rd basePath = .ok (files, rd') ∧ files.Perm chosen ∧
      files.Pairwise (fun a b => ∀ i j, numToken a = some i → numToken b = some j → i ≤ j) := by
  refine ⟨sortSlice srt less chosen, getListOfFiles_eq g srt fs rd rd' basePath dirs chosen hd hc,
    sortSlice_perm srt less chosen, ?_⟩
  have key : ∀ a b i j, numToken a = some i → numToken b = some j →
      less a b = decide (i < j) := by
    intro a b i j ha hb
    simp [less, ha, hb]
  have hasym : ∀ a b, (∃ i, numToken a = some i) → (∃ i, numToken b = some i) →
      less a b = true → less b a = false := fun a b _ _ h => less_asymm a b h
  have hneg : ∀ a b c, (∃ i, numToken a = some i) → (∃ i, numToken b = some i) →
      (∃ i, numToken c = some i) → less a b = false → less b c = false → less a c = false := by
    rintro a b c ⟨i, hi⟩ ⟨j, hj⟩ ⟨k, hk⟩ hab hbc
    rw [key a b i j hi hj] at hab
    rw [key b c j k hj hk] at hbc
    rw [key a c i k hi hk]
    simp only [decide_eq_false_iff_not] at hab hbc ⊢
    omega
  have hs := sortSlice_pairwise srt less (fun f => ∃ i, numToken f = some i) hasym hneg chosen
    (fun f hf => Option.ne_none_iff_exists'.mp (htok f hf))
  refine hs.imp ?_
  intro a b hba i j hi hj
  rw [key b a j i hj hi] at hba
  simp only [decide_eq_false_iff_not] at hba
  omega

/-- Witness of C10: the two categories of `set1/blue` in the demo catalog. -/
theorem layers_sorted_by_token_witness :
    ∃ files, getListOfFiles digitSource demoSorter demoFS ⟨⟨0, 1⟩, []⟩ "parts/sets/set1/blue" =
        .ok (files, ⟨⟨0, 0⟩, [2, 1]⟩) ∧
      files.Perm ["parts/sets/set1/blue/000#Mouth/001#7.png",
        "parts/sets/set1/blue/001#Eyes/000#1.png"] ∧
      files.Pairwise (fun a b => ∀ i j, numToken a = some i → numToken b = some j → i ≤ j) :=
  layers_sorted_by_token digitSource demoSorter demoFS ⟨⟨0, 1⟩, []⟩ ⟨⟨0, 0⟩, [2, 1]⟩
    "parts/sets/set1/blue"
    ["parts/sets/set1/blue/000#Mouth", "parts/sets/set1/blue/001#Eyes"]
    ["parts/sets/set1/blue/000#Mouth/001#7.png", "parts/sets/set1/blue/001#Eyes/000#1.png"]
    (by decide) (by decide) (by decide)

/-! ## Construction and selection: auxiliary facts -/

theorem New_ok (fs : List Node) (hash : List UInt8) (roboSet bgSet : String) (r : RoboHash)
    (h : New fs hash roboSet bgSet = .ok r) :
    ∃ sets bgSets colors, listDirs fs "parts/sets" = .ok sets ∧
      listDirs fs "parts/backgrounds" = .ok bgSets ∧
      listDirs fs "parts/sets/set1" = .ok colors ∧
      r = { rd := { src := { hi := fnv64a hash, lo := (fnv64a hash >>> 1) ||| 1 }, draws := [] },
            roboSet := roboSet, bgSet := bgSet, sets := sets, bgSets := bgSets, colors := colors } := by
  unfold New at h
  simp only [bind, Except.bind, pure, Except.pure] at h
  cases h1 : listDirs fs "parts/sets" with
  | error e => simp [h1] at h
  | ok sets =>
    cases h2 : listDirs fs "parts/backgrounds" with
    | error e => simp [h1, h2] at h
    | ok bgSets =>
      cases h3 : listDirs fs "parts/sets/set1" with
      | error e => simp [h1, h2, h3] at h
      | ok colors =>
        simp only [h1, h2, h3, Except.ok.injEq] at h
        exact ⟨sets, bgSets, colors, rfl, rfl, rfl, h.symm⟩

theorem IntN_ok (g : Source) (rd : Rand) (n : Nat) (hn : 0 < n) :
    IntN g rd n = .ok ((g.next rd.src n).1, { src := (g.next rd.src n).2, draws := rd.draws ++ [n] }) ∧
      (g.next rd.src n).1 < n := by
  refine ⟨?_, g.next_lt rd.src n hn⟩
  unfold IntN
  rw [if_neg (by omega)]

theorem index_ok (xs : List String) (i : Nat) (hi : i < xs.length) :
    ∃ x, index xs i = .ok x ∧ x ∈ xs ∧ xs[i]? = some x := by
  refine ⟨xs[i], ?_, List.getElem_mem hi, List.getElem?_eq_getElem hi⟩
  unfold index
  rw [List.getElem?_eq_getElem hi]

theorem drawParts_bounds (fs : List Node) :
    ∀ (ps : List String) (acc img : Image), drawParts fs ps acc = .ok img → img.Bounds = acc.Bounds
  | [], acc, img, h => by
    simp only [drawParts, pure, Except.pure, Except.ok.injEq] at h
    rw [← h]
  | p :: ps, acc, img, h => by
    simp only [drawParts, bind, Except.bind] at h
    cases hd : openDecode fs p with
    | error e => simp [hd] at h
    | ok partImg =>
      simp only [hd] at h
      have := drawParts_bounds fs ps _ img h
      simpa [Image.Bounds] using this

/-! ## Construction and selection: the claims -/

/-- C1: two instances built by `New` from the same identifier, requested set
and requested background over the same catalog are equal, and `Assemble`
returns the same result on both: the same error, or the same foreground file
list in layer order, the same background file and the same image. -/
theorem assemble_deterministic (g : Source) (srt : Sorter) (fs : List Node) (hash : List UInt8)
    (roboSet bgSet : String) (x₁ x₂ : Except Failure RoboHash)
    (h₁ : x₁ = New fs hash roboSet bgSet) (h₂ : x₂ = New fs hash roboSet bgSet) :
    x₁ = x₂ ∧ x₁.bind (select g srt fs) = x₂.bind (select g srt fs) ∧
      x₁.bind (Assemble g srt fs) = x₂.bind (Assemble g srt fs) := by
  subst h₁ h₂
  exact ⟨rfl, rfl, rfl⟩

/-- Witness of C1: two constructions over the demo catalog. -/
theorem assemble_deterministic_witness :
    New demoFS [100] "set1" "" = New demoFS [100] "set1" "" ∧
      (New demoFS [100] "set1" "").bind (select digitSource demoSorter demoFS) =
        (New demoFS [100] "set1" "").bind (select digitSource demoSorter demoFS) ∧
      (New demoFS [100] "set1" "").bind (Assemble digitSource demoSorter demoFS) =
        (New demoFS [100] "set1" "").bind (Assemble digitSource demoSorter demoFS) :=
  assemble_deterministic digitSource demoSorter demoFS [100] "set1" "" _ _ rfl rfl

/-- C4: an instance constructed with requested set `any` over a catalog with
at least one available set resolves, in the first step of `Assemble`, to an
element of the list of available set names. -/
theorem any_set_resolves_to_member (g : Source) (fs : List Node) (hash : List UInt8)
    (bgSet : String) (r : RoboHash) (hr : New fs hash "any" bgSet = .ok r) (hne : r.sets ≠ []) :
    ∃ r₁, resolveSet g r = .ok r₁ ∧ r₁.roboSet ∈ r.sets ∧ r₁.sets = r.sets := by
  obtain ⟨sets, bgSets, colors, -, -, -, hreq⟩ := New_ok fs hash "any" bgSet r hr
  have hrs : r.roboSet = "any" := by rw [hreq]
  have hpos : 0 < r.sets.length := List.length_pos.mpr hne
  obtain ⟨hI, hlt⟩ := IntN_ok g r.rd r.sets.length hpos
  obtain ⟨x, hx, hmem, -⟩ := index_ok r.sets _ hlt
  refine ⟨{ r with rd := ⟨(g.next r.rd.src r.sets.length).2, r.rd.draws ++ [r.sets.length]⟩,
                   roboSet := x }, ?_, hmem, rfl⟩
  simp only [resolveSet, hrs, if_true, hI, bind, Except.bind, hx, pure, Except.pure]

/-- Witness of C4: the demo catalog, identifier `d`. -/
theorem any_set_resolves_to_member_witness :
    ∃ r₁, resolveSet digitSource
        ⟨⟨⟨12638183902020757363, 6319091951010378681⟩, []⟩, "any", "", ["set1", "set2"], ["bg1"],
          ["blue", "red"]⟩ = .ok r₁ ∧
      r₁.roboSet ∈ ["set1", "set2"] ∧ r₁.sets = ["set1", "set2"] :=
  any_set_resolves_to_member digitSource demoFS [100] ""
    ⟨⟨⟨12638183902020757363, 6319091951010378681⟩, []⟩, "any", "", ["set1", "set2"], ["bg1"],
      ["blue", "red"]⟩ (by decide) (by decide)

/-- C5: every successful `Assemble` call returns an image whose bounds are the
rectangle from (0, 0) to (1024, 1024), 1024 wide and 1024 high, whatever the
bounds of the decoded part files and with or without a background. -/
theorem assemble_bounds (g : Source) (srt : Sorter) (fs : List Node) (r : RoboHash) (img : Image)
    (h : Assemble g srt fs r = .ok img) :
    img.Bounds = canvasRect ∧ img.Bounds.Dx = 1024 ∧ img.Bounds.Dy = 1024 := by
  have hb : img.Bounds = canvasRect := by
    unfold Assemble at h
    simp only [bind, Except.bind] at h
    cases hs : select g srt fs r with
    | error e => simp [hs] at h
    | ok sel =>
      simp only [hs, compose] at h
      split at h
      · simp [throw, throwThe, MonadExceptOf.throw] at h
      · simp only [bind, Except.bind] at h
        cases hd : drawParts fs sel.roboParts (.newRGBA canvasRect) with
        | error e => simp [hd] at h
        | ok roboImg =>
          have hrb := drawParts_bounds fs _ _ _ hd
          simp only [hd] at h
          split at h
          · cases ho : openDecode fs sel.background with
            | error e => simp [ho] at h
            | ok bgImg =>
              simp only [ho, pure, Except.pure, Except.ok.injEq] at h
              rw [← h]
              rfl
          · simp only [pure, Except.pure, Except.ok.injEq] at h
            rw [← h, hrb]
            rfl
  rw [hb]
  exact ⟨rfl, by decide, by decide⟩

theorem IntN_eq_ok (g : Source) (rd rd' : Rand) (n v : Nat) (h : IntN g rd n = .ok (v, rd')) :
    0 < n ∧ v < n ∧ rd'.draws = rd.draws ++ [n] := by
  unfold IntN at h
  by_cases hn : n = 0
  · simp [hn] at h
  · have hpos : 0 < n := Nat.pos_of_ne_zero hn
    simp only [hn, if_false, Except.ok.injEq, Prod.mk.injEq] at h
    obtain ⟨hv, hrd⟩ := h
    refine ⟨hpos, ?_, ?_⟩
    · rw [← hv]; exact g.next_lt rd.src n hpos
    · rw [← hrd]

theorem resolveSet_spec (g : Source) (r r₁ : RoboHash) (h : resolveSet g r = .ok r₁) :
    r₁.bgSet = r.bgSet ∧ r₁.sets = r.sets ∧ r₁.bgSets = r.bgSets ∧ r₁.colors = r.colors ∧
      r₁.rd.draws = r.rd.draws ++ (if r.roboSet = "any" then [r.sets.length] else []) := by
  unfold resolveSet at h
  by_cases hany : r.roboSet = "any"
  · simp only [hany, if_true, bind, Except.bind] at h
    cases hI : IntN g r.rd r.sets.length with
    | error e => simp [hI] at h
    | ok p =>
      obtain ⟨v, rd'⟩ := p
      simp only [hI] at h
      cases hx : index r.sets v with
      | error e => simp [hx] at h
      | ok x =>
        simp only [hx, pure, Except.pure, Except.ok.injEq] at h
        subst h
        simp [hany, (IntN_eq_ok g r.rd rd' _ v hI).2.2]
  · simp only [hany, if_false] at h
    split at h
    · simp only [pure, Except.pure, Except.ok.injEq] at h
      subst h
      simp [hany]
    · simp only [bind, Except.bind] at h
      cases hx : index r.sets 0 with
      | error e => simp [hx] at h
      | ok x =>
        simp only [hx, pure, Except.pure, Except.ok.injEq] at h
        subst h
        simp [hany]

theorem resolveColor_spec (g : Source) (r r₁ : RoboHash) (h : resolveColor g r = .ok r₁) :
    r₁.bgSet = r.bgSet ∧ r₁.sets = r.sets ∧ r₁.bgSets = r.bgSets ∧ r₁.colors = r.colors ∧
      r₁.rd.draws = r.rd.draws ++ (if r.roboSet = "set1" then [r.colors.length] else []) := by
  unfold resolveColor at h
  by_cases hs : r.roboSet = "set1"
  · simp only [hs, if_true, bind, Except.bind] at h
    cases hI : IntN g r.rd r.colors.length with
    | error e => simp [hI] at h
    | ok p =>
      obtain ⟨v, rd'⟩ := p
      simp only [hI] at h
      cases hx : index r.colors v with
      | error e => simp [hx] at h
      | ok x =>
        simp only [hx, pure, Except.pure, Except.ok.injEq] at h
        subst h
        simp [hs, (IntN_eq_ok g r.rd rd' _ v hI).2.2]
  · simp only [hs, if_false, pure, Except.pure, Except.ok.injEq] at h
    subst h
    simp [hs]

theorem resolveSet_bgSet (g : Source) (r : RoboHash) (b : String) :
    resolveSet g { r with bgSet := b } =
      (resolveSet g r).map (fun x => { x with bgSet := b }) := by
  unfold resolveSet
  by_cases hany : r.roboSet = "any"
  · simp only [hany, if_true, bind, Except.bind]
    cases hI : IntN g r.rd r.sets.length with
    | error e => rfl
    | ok p =>
      obtain ⟨v, rd'⟩ := p
      cases hx : index r.sets v <;> simp [hx, Except.map, pure, Except.pure]
  · simp only [hany, if_false]
    split
    · rfl
    · simp only [bind, Except.bind]
      cases hx : index r.sets 0 <;> simp [hx, Except.map, pure, Except.pure]

theorem resolveColor_bgSet (g : Source) (r : RoboHash) (b : String) :
    resolveColor g { r with bgSet := b } =
      (resolveColor g r).map (fun x => { x with bgSet := b }) := by
  unfold resolveColor
  by_cases hs : r.roboSet = "set1"
  · simp only [hs, if_true, bind, Except.bind]
    cases hI : IntN g r.rd r.colors.length with
    | error e => rfl
    | ok p =>
      obtain ⟨v, rd'⟩ := p
      cases hx : index r.colors v <;> simp [hx, Except.map, pure, Except.pure]
  · simp only [hs, if_false]
    rfl

theorem resolveBackground_none (g : Source) (r : RoboHash) (hany : r.bgSet ≠ "any")
    (hmem : r.bgSet = "" ∨ r.bgSet ∉ r.bgSets) : resolveBackground g r = .ok (r, false) := by
  unfold resolveBackground
  have hf : (r.bgSet != "" && r.bgSets.contains r.bgSet) = false := by
    rcases hmem with h | h
    · simp [h]
    · simp [h]
  simp only [hf]
  simp [hany, pure, Except.pure]

theorem compose_bgSet (fs : List Node) (sel : Selection) (b : String) :
    compose fs { sel with robo := { sel.robo with bgSet := b } } = compose fs sel := rfl

theorem select_ok (g : Source) (srt : Sorter) (fs : List Node) (r : RoboHash) (sel : Selection)
    (h : select g srt fs r = .ok sel) :
    ∃ r₁ r₂ r₃ found dirs chosen rd' bg r₄,
      resolveSet g r = .ok r₁ ∧ resolveColor g r₁ = .ok r₂ ∧
      resolveBackground g r₂ = .ok (r₃, found) ∧
      categoryDirs fs (pathJoin "parts/sets" r₃.roboSet) = .ok dirs ∧
      chooseFiles g fs dirs r₃.rd = .ok (chosen, rd') ∧
      chooseBackground g fs { r₃ with rd := rd' } found = .ok (bg, r₄) ∧
      sel = { robo := r₄, roboParts := sortSlice srt less chosen, background := bg } := by
  unfold select resolve getListOfFiles at h
  simp only [bind, Except.bind] at h
  cases h1 : resolveSet g r with
  | error e => simp [h1] at h
  | ok r₁ =>
    simp only [h1] at h
    cases h2 : resolveColor g r₁ with
    | error e => simp [h2] at h
    | ok r₂ =>
      simp only [h2] at h
      cases h3 : resolveBackground g r₂ with
      | error e => simp [h3] at h
      | ok p =>
        obtain ⟨r₃, found⟩ := p
        simp only [h3] at h
        cases h4 : categoryDirs fs (pathJoin "parts/sets" r₃.roboSet) with
        | error e => simp [h4] at h
        | ok dirs =>
          simp only [h4] at h
          cases h5 : chooseFiles g fs dirs r₃.rd with
          | error e => simp [h5] at h
          | ok q =>
            obtain ⟨chosen, rd'⟩ := q
            simp only [h5, pure, Except.pure] at h
            cases h6 : chooseBackground g fs { r₃ with rd := rd' } found with
            | error e => simp [h6] at h
            | ok t =>
              obtain ⟨bg, r₄⟩ := t
              simp only [h6, Except.ok.injEq] at h
              exact ⟨r₁, r₂, r₃, found, dirs, chosen, rd', bg, r₄, rfl, h2, h3, h4, h5, h6, h.symm⟩

theorem select_of_resolve_error (g : Source) (srt : Sorter) (fs : List Node) (r r' : RoboHash) (found : Bool)
    (e : Failure) (hres : resolve g r = .ok (r', found))
    (hl : getListOfFiles g srt fs r'.rd (pathJoin "parts/sets" r'.roboSet) = .error e) :
    select g srt fs r = .error e ∧ Assemble g srt fs r = .error e := by
  have hs : select g srt fs r = .error e := by
    simp [select, hres, hl, bind, Except.bind]
  exact ⟨hs, by simp [Assemble, hs, bind, Except.bind]⟩

theorem getFilesFromDir_error (fs : List Node) (d : String) (e : Failure)
    (h : getFilesFromDir fs d = .error e) : e = .readDir d := by
  unfold getFilesFromDir at h
  simp only [bind, Except.bind] at h
  cases hr : ReadDir fs d with
  | ok es => simp [hr, pure, Except.pure] at h
  | error e' =>
    simp only [hr, Except.error.injEq] at h
    subst h
    unfold ReadDir at hr
    split at hr
    · simp at hr
    · simp only [Except.error.injEq] at hr
      exact hr.symm

theorem getRandomFile_spec (g : Source) (fs : List Node) (rd : Rand) (d : String) :
    (∃ files f rd', getFilesFromDir fs d = .ok files ∧ 0 < files.length ∧ f ∈ files ∧
        getRandomFile g fs rd d = .ok (f, rd') ∧ rd'.draws = rd.draws ++ [files.length]) ∨
      (getFilesFromDir fs d = .ok [] ∧ getRandomFile g fs rd d = .error (.noFiles d)) ∨
      (getFilesFromDir fs d = .error (.readDir d) ∧ getRandomFile g fs rd d = .error (.readDir d)) := by
  cases hf : getFilesFromDir fs d with
  | error e =>
    have he := getFilesFromDir_error fs d e hf
    subst he
    right; right
    exact ⟨rfl, by simp [getRandomFile, hf, bind, Except.bind]⟩
  | ok files =>
    by_cases hlen : files.length = 0
    · right; left
      have : files = [] := List.length_eq_zero.mp hlen
      subst this
      exact ⟨rfl, by simp [getRandomFile, hf, bind, Except.bind, throw, throwThe, MonadExceptOf.throw]⟩
    · left
      have hpos : 0 < files.length := Nat.pos_of_ne_zero hlen
      obtain ⟨hI, hlt⟩ := IntN_ok g rd files.length hpos
      obtain ⟨x, hx, hmem, -⟩ := index_ok files _ hlt
      refine ⟨files, x, ⟨(g.next rd.src files.length).2, rd.draws ++ [files.length]⟩, rfl, hpos, hmem, ?_, rfl⟩
      simp [getRandomFile, hf, hlen, hI, hx, bind, Except.bind, pure, Except.pure]

theorem chooseFiles_empty_dir (g : Source) (fs : List Node) (d : String)
    (hempty : getFilesFromDir fs d = .ok []) :
    ∀ (dirs : List String) (rd : Rand), d ∈ dirs →
      ∃ d' ∈ dirs, chooseFiles g fs dirs rd = .error (.noFiles d') ∨
        chooseFiles g fs dirs rd = .error (.readDir d')
  | [], _, hmem => absurd hmem (List.not_mem_nil d)
  | dir :: rest, rd, hmem => by
    rcases getRandomFile_spec g fs rd dir with ⟨files, f, rd', hf, hpos, -, hr, -⟩ | ⟨-, hr⟩ | ⟨-, hr⟩
    · have hne : d ≠ dir := by
        rintro rfl
        rw [hempty] at hf
        simp only [Except.ok.injEq] at hf
        subst hf
        simp at hpos
      have hrest : d ∈ rest := by
        rcases List.mem_cons.mp hmem with h | h
        · exact absurd h hne
        · exact h
      obtain ⟨d', hd', hcase⟩ := chooseFiles_empty_dir g fs d hempty rest rd' hrest
      refine ⟨d', List.mem_cons_of_mem _ hd', ?_⟩
      rcases hcase with h | h
      · left; simp [chooseFiles, hr, h, bind, Except.bind]
      · right; simp [chooseFiles, hr, h, bind, Except.bind]
    · exact ⟨dir, List.mem_cons_self _ _, Or.inl (by simp [chooseFiles, hr, bind, Except.bind])⟩
    · exact ⟨dir, List.mem_cons_self _ _, Or.inr (by simp [chooseFiles, hr, bind, Except.bind])⟩

theorem chooseFiles_draws (g : Source) (fs : List Node) :
    ∀ (dirs : List String) (rd rd' : Rand) (chosen : List String),
      chooseFiles g fs dirs rd = .ok (chosen, rd') →
      rd'.draws = rd.draws ++ dirs.map (fileCount fs)
  | [], rd, rd', chosen, h => by
    simp only [chooseFiles, pure, Except.pure, Except.ok.injEq, Prod.mk.injEq] at h
    simp [← h.2]
  | dir :: rest, rd, rd', chosen, h => by
    rcases getRandomFile_spec g fs rd dir with ⟨files, f, rd₁, hf, -, -, hr, hdr⟩ | ⟨-, hr⟩ | ⟨-, hr⟩
    · simp only [chooseFiles, hr, bind, Except.bind] at h
      cases hc : chooseFiles g fs rest rd₁ with
      | error e => simp [hc] at h
      | ok q =>
        obtain ⟨chosen', rd₂⟩ := q
        simp only [hc, pure, Except.pure, Except.ok.injEq, Prod.mk.injEq] at h
        have ih := chooseFiles_draws g fs rest rd₁ rd₂ chosen' hc
        rw [← h.2, ih, hdr]
        simp [fileCount, hf]
    · simp [chooseFiles, hr, bind, Except.bind] at h
    · simp [chooseFiles, hr, bind, Except.bind] at h

theorem chooseFiles_forall₂ (g : Source) (fs : List Node) :
    ∀ (dirs : List String) (rd rd' : Rand) (chosen : List String),
      chooseFiles g fs dirs rd = .ok (chosen, rd') →
      List.Forall₂ (fun d f => ∃ listing, getFilesFromDir fs d = .ok listing ∧ f ∈ listing)
        dirs chosen
  | [], rd, rd', chosen, h => by
    simp only [chooseFiles, pure, Except.pure, Except.ok.injEq, Prod.mk.injEq] at h
    rw [← h.1]
    exact List.Forall₂.nil
  | dir :: rest, rd, rd', chosen, h => by
    rcases getRandomFile_spec g fs rd dir with ⟨files, f, rd₁, hf, -, hmem, hr, -⟩ | ⟨-, hr⟩ | ⟨-, hr⟩
    · simp only [chooseFiles, hr, bind, Except.bind] at h
      cases hc : chooseFiles g fs rest rd₁ with
      | error e => simp [hc] at h
      | ok q =>
        obtain ⟨chosen', rd₂⟩ := q
        simp only [hc, pure, Except.pure, Except.ok.injEq, Prod.mk.injEq] at h
        rw [← h.1]
        exact List.Forall₂.cons ⟨files, hf, hmem⟩ (chooseFiles_forall₂ g fs rest rd₁ rd₂ chosen' hc)
    · simp [chooseFiles, hr, bind, Except.bind] at h
    · simp [chooseFiles, hr, bind, Except.bind] at h

theorem resolveBackground_spec (g : Source) (r r' : RoboHash) (found : Bool)
    (h : resolveBackground g r = .ok (r', found)) :
    r'.roboSet = r.roboSet ∧
      r'.rd.draws = r.rd.draws ++
        (if r.bgSet = "any" ∧ r.bgSet ∉ r.bgSets then [r.bgSets.length] else []) ∧
      (found = true ↔ (r.bgSet ≠ "" ∧ r.bgSet ∈ r.bgSets) ∨ r.bgSet = "any") := by
  unfold resolveBackground at h
  by_cases hm : r.bgSet ≠ "" ∧ r.bgSet ∈ r.bgSets
  · have hf : (r.bgSet != "" && r.bgSets.contains r.bgSet) = true := by simp [hm.1, hm.2]
    simp only [hf, Bool.not_true, Bool.false_and, Bool.false_eq_true, if_false, pure, Except.pure,
      Except.ok.injEq, Prod.mk.injEq] at h
    obtain ⟨h1, h2⟩ := h
    subst h1
    refine ⟨rfl, ?_, ?_⟩
    · simp [hm.2]
    · simp [← h2, hm]
  · have hf : (r.bgSet != "" && r.bgSets.contains r.bgSet) = false := by
      by_cases he : r.bgSet = ""
      · simp [he]
      · have : r.bgSet ∉ r.bgSets := fun hx => hm ⟨he, hx⟩
        simp [this]
    simp only [hf, Bool.not_false, Bool.true_and, decide_eq_true_eq] at h
    by_cases hany : r.bgSet = "any"
    · have hnm : r.bgSet ∉ r.bgSets := by
        intro hx
        exact hm ⟨by rw [hany]; decide, hx⟩
      simp only [hany, if_true, bind, Except.bind] at h
      cases hI : IntN g r.rd r.bgSets.length with
      | error e => simp [hI] at h
      | ok p =>
        obtain ⟨v, rd'⟩ := p
        simp only [hI] at h
        cases hx : index r.bgSets v with
        | error e => simp [hx] at h
        | ok x =>
          simp only [hx, pure, Except.pure, Except.ok.injEq, Prod.mk.injEq] at h
          obtain ⟨h1, h2⟩ := h
          subst h1
          refine ⟨rfl, ?_, ?_⟩
          · have hnm' : "any" ∉ r.bgSets := by rw [← hany]; exact hnm
            simp [hany, hnm', (IntN_eq_ok g r.rd rd' _ v hI).2.2]
          · simp [← h2, hany]
    · simp only [hany, if_false, pure, Except.pure, Except.ok.injEq, Prod.mk.injEq] at h
      obtain ⟨h1, h2⟩ := h
      subst h1
      refine ⟨rfl, ?_, ?_⟩
      · simp [hany]
      · simp only [← h2, Bool.false_eq_true, false_iff, not_or]
        exact ⟨hm, hany⟩

theorem chooseBackground_spec (g : Source) (fs : List Node) (r r' : RoboHash) (found : Bool)
    (bg : String) (h : chooseBackground g fs r found = .ok (bg, r')) :
    r'.roboSet = r.roboSet ∧ r'.bgSet = r.bgSet ∧
      r'.rd.draws = r.rd.draws ++
        (if found = true ∧ 0 < fileCount fs (pathJoin "parts/backgrounds" r.bgSet)
         then [fileCount fs (pathJoin "parts/backgrounds" r.bgSet)] else []) := by
  unfold chooseBackground at h
  cases found with
  | false =>
    simp only [Bool.false_eq_true, if_false, pure, Except.pure, Except.ok.injEq, Prod.mk.injEq] at h
    obtain ⟨-, h2⟩ := h
    subst h2
    simp
  | true =>
    simp only [if_true, bind, Except.bind] at h
    cases hf : getFilesFromDir fs (pathJoin "parts/backgrounds" r.bgSet) with
    | error e => simp [hf] at h
    | ok files =>
      simp only [hf] at h
      by_cases hpos : files.length > 0
      · simp only [hpos, if_true] at h
        cases hI : IntN g r.rd files.length with
        | error e => simp [hI] at h
        | ok p =>
          obtain ⟨v, rd'⟩ := p
          simp only [hI] at h
          cases hx : index files v with
          | error e => simp [hx] at h
          | ok x =>
            simp only [hx, pure, Except.pure, Except.ok.injEq, Prod.mk.injEq] at h
            obtain ⟨-, h2⟩ := h
            subst h2
            have hp : 0 < files.length := hpos
            simp [fileCount, hf, hp, (IntN_eq_ok g r.rd rd' _ v hI).2.2]
      · simp only [hpos, if_false, pure, Except.pure, Except.ok.injEq, Prod.mk.injEq] at h
        obtain ⟨-, h2⟩ := h
        subst h2
        have hz : ¬ 0 < files.length := hpos
        simp [fileCount, hf, hz]

theorem categoryDirs_spec (fs : List Node) (p : String) (dirs : List String)
    (h : categoryDirs fs p = .ok dirs) :
    ∃ subs, getAllSubdirectories fs p = .ok subs ∧
      dirs = if 0 < fileCount fs p then p :: subs else subs := by
  unfold categoryDirs at h
  simp only [bind, Except.bind] at h
  cases hs : getAllSubdirectories fs p with
  | error e => simp [hs] at h
  | ok subs =>
    simp only [hs] at h
    refine ⟨subs, rfl, ?_⟩
    cases hf : getFilesFromDir fs p with
    | error e =>
      simp only [hf, pure, Except.pure, Except.ok.injEq] at h
      simp [fileCount, hf, h]
    | ok base =>
      simp only [hf] at h
      by_cases hpos : base.length > 0
      · simp only [hpos, if_true, pure, Except.pure, Except.ok.injEq] at h
        have hp : 0 < base.length := hpos
        simp [fileCount, hf, hp, h]
      · simp only [hpos, if_false, pure, Except.pure, Except.ok.injEq] at h
        have hz : ¬ 0 < base.length := hpos
        simp [fileCount, hf, hz, h]

/-! ## Selection: the claims -/

/-- C2, as amended: when the requested set is not `any` and is not among the
available sets (the empty string included), and the first available set in
sorted order is not itself named `any`, the first step of `Assemble` raises
nothing and resolves to that first set, and `Assemble` returns exactly what it
returns when the first set is requested by name: the same selection (files,
background, generator state and draws made) and the same image or error. -/
theorem unknown_set_falls_back_to_first (g : Source) (srt : Sorter) (fs : List Node) (hash : List UInt8)
    (roboSet bgSet first : String) (r : RoboHash) (hs : roboSet ≠ "any")
    (hr : New fs hash roboSet bgSet = .ok r) (hmem : roboSet ∉ r.sets)
    (hfirst : r.sets.head? = some first) (hne : first ≠ "any") :
    ∃ r₀, New fs hash first bgSet = .ok r₀ ∧ resolveSet g r = .ok r₀ ∧
      resolveSet g r₀ = .ok r₀ ∧ select g srt fs r = select g srt fs r₀ ∧
      Assemble g srt fs r = Assemble g srt fs r₀ := by
  obtain ⟨sets, bgSets, colors, h1, h2, h3, hreq⟩ := New_ok fs hash roboSet bgSet r hr
  subst hreq
  simp only at hmem hfirst
  have hidx : index sets 0 = .ok first := by
    cases sets with
    | nil => simp at hfirst
    | cons a tl =>
      simp only [List.head?_cons, Option.some.injEq] at hfirst
      subst hfirst
      simp [index]
  have hin : first ∈ sets := List.mem_of_mem_head? hfirst
  have hA : resolveSet g ⟨⟨⟨fnv64a hash, (fnv64a hash >>> 1) ||| 1⟩, []⟩, roboSet, bgSet, sets,
      bgSets, colors⟩ = .ok ⟨⟨⟨fnv64a hash, (fnv64a hash >>> 1) ||| 1⟩, []⟩, first, bgSet, sets,
      bgSets, colors⟩ := by
    simp [resolveSet, hs, hmem, hidx, bind, Except.bind, pure, Except.pure]
  have hB : resolveSet g ⟨⟨⟨fnv64a hash, (fnv64a hash >>> 1) ||| 1⟩, []⟩, first, bgSet, sets,
      bgSets, colors⟩ = .ok ⟨⟨⟨fnv64a hash, (fnv64a hash >>> 1) ||| 1⟩, []⟩, first, bgSet, sets,
      bgSets, colors⟩ := by
    simp [resolveSet, hne, hin, pure, Except.pure]
  have hsel : select g srt fs ⟨⟨⟨fnv64a hash, (fnv64a hash >>> 1) ||| 1⟩, []⟩, roboSet, bgSet, sets,
      bgSets, colors⟩ = select g srt fs ⟨⟨⟨fnv64a hash, (fnv64a hash >>> 1) ||| 1⟩, []⟩, first, bgSet,
      sets, bgSets, colors⟩ := by
    simp only [select, resolve, bind, Except.bind, hA, hB]
  refine ⟨_, ?_, hA, hB, hsel, ?_⟩
  · simp [New, h1, h2, h3, bind, Except.bind, pure, Except.pure]
  · simp only [Assemble, hsel]

/-- Witness of C2: the demo catalog, requested set `nonexistent`. -/
theorem unknown_set_falls_back_to_first_witness :
    ∃ r₀, New demoFS [100] "set1" "" = .ok r₀ ∧
      resolveSet digitSource ⟨⟨⟨12638183902020757363, 6319091951010378681⟩, []⟩, "nonexistent", "",
        ["set1", "set2"], ["bg1"], ["blue", "red"]⟩ = .ok r₀ ∧
      resolveSet digitSource r₀ = .ok r₀ ∧
      select digitSource demoSorter demoFS ⟨⟨⟨12638183902020757363, 6319091951010378681⟩, []⟩, "nonexistent", "",
        ["set1", "set2"], ["bg1"], ["blue", "red"]⟩ = select digitSource demoSorter demoFS r₀ ∧
      Assemble digitSource demoSorter demoFS ⟨⟨⟨12638183902020757363, 6319091951010378681⟩, []⟩, "nonexistent",
        "", ["set1", "set2"], ["bg1"], ["blue", "red"]⟩ = Assemble digitSource demoSorter demoFS r₀ :=
  unknown_set_falls_back_to_first digitSource demoSorter demoFS [100] "nonexistent" "" "set1"
    ⟨⟨⟨12638183902020757363, 6319091951010378681⟩, []⟩, "nonexistent", "", ["set1", "set2"], ["bg1"],
      ["blue", "red"]⟩ (by decide) (by decide) (by decide) (by decide) (by decide)

/-- Counterexample to C2 as stated: in a catalog whose first set is named
`any`, the unknown name `nope` falls back to the set `any`, while requesting
the first set by its name `any` makes a random draw and here picks `set1`. -/
theorem unknown_set_differs_when_first_is_any :
    (New anyFS [] "nope" "").map (fun r => r.sets) = .ok ["any", "set1"] ∧
      ((New anyFS [] "nope" "").bind (select digitSource demoSorter anyFS)).map
        (fun s => (s.roboParts, s.robo.rd.draws)) = .ok (["parts/sets/any/body/a.png"], [1]) ∧
      ((New anyFS [] "any" "").bind (select digitSource demoSorter anyFS)).map
        (fun s => (s.roboParts, s.robo.rd.draws)) =
          .ok (["parts/sets/set1/blue/body/b.png"], [2, 1, 1]) ∧
      (New anyFS [] "nope" "").bind (Assemble digitSource demoSorter anyFS) ≠
        (New anyFS [] "any" "").bind (Assemble digitSource demoSorter anyFS) := by
  decide

/-- C3: when the requested background is not `any` and is not among the
available background sets, construction with the empty background succeeds
too, and `Assemble` returns the same image or error, the same foreground files
and the same generator state and draws as with the empty background; no
background file is selected, and the background steps raise nothing and leave
the generator untouched. -/
theorem unknown_background_is_none (g : Source) (srt : Sorter) (fs : List Node) (hash : List UInt8)
    (roboSet bgSet : String) (r : RoboHash) (hany : bgSet ≠ "any")
    (hr : New fs hash roboSet bgSet = .ok r) (hmem : bgSet ∉ r.bgSets) :
    ∃ r₀, New fs hash roboSet "" = .ok r₀ ∧ Assemble g srt fs r = Assemble g srt fs r₀ ∧
      (select g srt fs r).map (fun s => (s.roboParts, s.background, s.robo.rd)) =
        (select g srt fs r₀).map (fun s => (s.roboParts, s.background, s.robo.rd)) ∧
      (∀ sel, select g srt fs r = .ok sel → sel.background = "") ∧
      (∀ r', r'.bgSet = bgSet → r'.bgSets = r.bgSets →
        resolveBackground g r' = .ok (r', false) ∧
          chooseBackground g fs r' false = .ok ("", r')) := by
  obtain ⟨sets, bgSets, colors, h1, h2, h3, hreq⟩ := New_ok fs hash roboSet bgSet r hr
  have hnew : New fs hash roboSet "" = .ok { r with bgSet := "" } := by
    rw [hreq]
    simp [New, h1, h2, h3, bind, Except.bind, pure, Except.pure]
  have hbg : r.bgSet = bgSet := by rw [hreq]
  have hrr : r = { ({ r with bgSet := "" } : RoboHash) with bgSet := bgSet } := by rw [hreq]
  have hstep : ∀ r' : RoboHash, r'.bgSet = bgSet → r'.bgSets = r.bgSets →
      resolveBackground g r' = .ok (r', false) ∧ chooseBackground g fs r' false = .ok ("", r') := by
    intro r' hb hbs
    refine ⟨resolveBackground_none g r' (by rw [hb]; exact hany) (Or.inr ?_), rfl⟩
    rw [hb, hbs]
    exact hmem
  have hsel : select g srt fs r =
      (select g srt fs { r with bgSet := "" }).map
        (fun s => { s with robo := { s.robo with bgSet := bgSet } }) := by
    rw [hrr]
    simp only [select, resolve, bind, Except.bind]
    rw [resolveSet_bgSet g { r with bgSet := "" } bgSet]
    cases hA : resolveSet g { r with bgSet := "" } with
    | error e => rfl
    | ok a =>
      obtain ⟨ha1, -, ha3, -, -⟩ := resolveSet_spec g _ a hA
      simp only [Except.map]
      rw [resolveColor_bgSet g a bgSet]
      cases hB : resolveColor g a with
      | error e => rfl
      | ok b =>
        obtain ⟨hb1, -, hb3, -, -⟩ := resolveColor_spec g a b hB
        simp only [Except.map]
        have e1 : resolveBackground g b = .ok (b, false) :=
          resolveBackground_none g b
            (by rw [hb1, ha1]; show ("" : String) ≠ "any"; decide) (Or.inl (by rw [hb1, ha1]))
        have e2 : resolveBackground g { b with bgSet := bgSet } = .ok ({ b with bgSet := bgSet }, false) :=
          resolveBackground_none g _ hany (Or.inr (by
            show bgSet ∉ b.bgSets
            rw [hb3, ha3]
            exact hmem))
        rw [e1, e2]
        simp only
        cases hL : getListOfFiles g srt fs b.rd (pathJoin "parts/sets" b.roboSet) with
        | error e => rfl
        | ok q => rfl
  refine ⟨_, hnew, ?_, ?_, ?_, hstep⟩
  · simp only [Assemble, bind, Except.bind, hsel]
    cases hS : select g srt fs { r with bgSet := "" } with
    | error e => rfl
    | ok s => exact compose_bgSet fs s bgSet
  · rw [hsel]
    cases hS : select g srt fs { r with bgSet := "" } <;> rfl
  · intro sel hok
    obtain ⟨r₁, r₂, r₃, found, dirs, chosen, rd', bg, r₄, k1, k2, k3, -, -, k6, k7⟩ :=
      select_ok g srt fs r sel hok
    obtain ⟨a1, -, a3, -, -⟩ := resolveSet_spec g r r₁ k1
    obtain ⟨b1, -, b3, -, -⟩ := resolveColor_spec g r₁ r₂ k2
    have hk := (hstep r₂ (by rw [b1, a1, hbg]) (by rw [b3, a3])).1
    rw [hk] at k3
    simp only [Except.ok.injEq, Prod.mk.injEq] at k3
    obtain ⟨-, hfound⟩ := k3
    subst hfound
    simp only [chooseBackground, Bool.false_eq_true, if_false, pure, Except.pure, Except.ok.injEq,
      Prod.mk.injEq] at k6
    rw [k7]
    exact k6.1.symm

/-- Witness of C3: the demo catalog, requested background `nonexistent`. -/
theorem unknown_background_is_none_witness :
    ∃ r₀, New demoFS [100] "set2" "" = .ok r₀ ∧
      Assemble digitSource demoSorter demoFS ⟨⟨⟨12638183902020757363, 6319091951010378681⟩, []⟩, "set2",
        "nonexistent", ["set1", "set2"], ["bg1"], ["blue", "red"]⟩ = Assemble digitSource demoSorter demoFS r₀ ∧
      (select digitSource demoSorter demoFS ⟨⟨⟨12638183902020757363, 6319091951010378681⟩, []⟩, "set2",
        "nonexistent", ["set1", "set2"], ["bg1"], ["blue", "red"]⟩).map
          (fun s => (s.roboParts, s.background, s.robo.rd)) =
        (select digitSource demoSorter demoFS r₀).map (fun s => (s.roboParts, s.background, s.robo.rd)) ∧
      (∀ sel, select digitSource demoSorter demoFS ⟨⟨⟨12638183902020757363, 6319091951010378681⟩, []⟩, "set2",
        "nonexistent", ["set1", "set2"], ["bg1"], ["blue", "red"]⟩ = .ok sel → sel.background = "") ∧
      (∀ r', r'.bgSet = "nonexistent" → r'.bgSets = ["bg1"] →
        resolveBackground digitSource r' = .ok (r', false) ∧
          chooseBackground digitSource demoFS r' false = .ok ("", r')) :=
  unknown_background_is_none digitSource demoSorter demoFS [100] "set2" "nonexistent"
    ⟨⟨⟨12638183902020757363, 6319091951010378681⟩, []⟩, "set2", "nonexistent", ["set1", "set2"],
      ["bg1"], ["blue", "red"]⟩ (by decide) (by decide) (by decide)

/-- Witness of C5: set `set2` of the demo catalog, parts of 512 x 512 and
10 x 10 pixels. -/
theorem assemble_bounds_witness :
    demoImage.Bounds = canvasRect ∧ demoImage.Bounds.Dx = 1024 ∧ demoImage.Bounds.Dy = 1024 :=
  assemble_bounds digitSource demoSorter demoFS
    ⟨⟨⟨12638183902020757363, 6319091951010378681⟩, []⟩, "set2", "", ["set1", "set2"], ["bg1"],
      ["blue", "red"]⟩ demoImage (by decide)

/-- C6: when set, colour and background set are resolved and one of the
category directories of the resolved set path (the path itself when it lists
files, or a descendant directory found by the walk) lists no file, `Assemble`
returns an error and no image: the error of an empty or unreadable category,
never a panic and never an image with fewer layers. -/
theorem empty_category_is_fatal (g : Source) (srt : Sorter) (fs : List Node) (r r' : RoboHash) (found : Bool)
    (dirs : List String) (d : String) (hres : resolve g r = .ok (r', found))
    (hd : categoryDirs fs (pathJoin "parts/sets" r'.roboSet) = .ok dirs) (hmem : d ∈ dirs)
    (hempty : getFilesFromDir fs d = .ok []) :
    ∃ e, Assemble g srt fs r = .error e ∧ select g srt fs r = .error e ∧ e.isPanic = false ∧
      ∃ d' ∈ dirs, e = .noFiles d' ∨ e = .readDir d' := by
  obtain ⟨d', hd', hcase⟩ := chooseFiles_empty_dir g fs d hempty dirs r'.rd hmem
  rcases hcase with h | h
  · have hl : getListOfFiles g srt fs r'.rd (pathJoin "parts/sets" r'.roboSet) = .error (.noFiles d') := by
      simp [getListOfFiles, hd, h, bind, Except.bind]
    obtain ⟨hs, ha⟩ := select_of_resolve_error g srt fs r r' found _ hres hl
    exact ⟨_, ha, hs, rfl, d', hd', Or.inl rfl⟩
  · have hl : getListOfFiles g srt fs r'.rd (pathJoin "parts/sets" r'.roboSet) = .error (.readDir d') := by
      simp [getListOfFiles, hd, h, bind, Except.bind]
    obtain ⟨hs, ha⟩ := select_of_resolve_error g srt fs r r' found _ hres hl
    exact ⟨_, ha, hs, rfl, d', hd', Or.inr rfl⟩

/-- Witness of C6: the category `eyes` holds only a hidden file. -/
theorem empty_category_is_fatal_witness :
    ∃ e, Assemble digitSource demoSorter emptyCategoryFS ⟨⟨⟨0, 0⟩, []⟩, "set2", "", ["set2"], [], []⟩ = .error e ∧
      select digitSource demoSorter emptyCategoryFS ⟨⟨⟨0, 0⟩, []⟩, "set2", "", ["set2"], [], []⟩ = .error e ∧
      e.isPanic = false ∧
      ∃ d' ∈ ["parts/sets/set2/body", "parts/sets/set2/eyes"], e = .noFiles d' ∨ e = .readDir d' :=
  empty_category_is_fatal digitSource demoSorter emptyCategoryFS ⟨⟨⟨0, 0⟩, []⟩, "set2", "", ["set2"], [], []⟩
    ⟨⟨⟨0, 0⟩, []⟩, "set2", "", ["set2"], [], []⟩ false
    ["parts/sets/set2/body", "parts/sets/set2/eyes"] "parts/sets/set2/eyes"
    (by decide) (by decide) (by decide) (by decide)

/-- C7: in an `Assemble` call whose selection completes, the generator is
asked for exactly these draws, in this order, after those made before the
call: one bounded by the number of sets if the requested set is `any`; one
bounded by the number of colours if the resolved set is `set1`; one bounded by
the number of background sets if the requested background is `any` and `any`
is not a background-set name; one per foreground category bounded by its file
count, the set path first when it lists files and then the descendant
directories as `getAllSubdirectories` returns them; and last one bounded by
the file count of the background directory when a background set was resolved
and that directory lists at least one file. -/
theorem draw_order (g : Source) (srt : Sorter) (fs : List Node) (r : RoboHash) (sel : Selection)
    (h : select g srt fs r = .ok sel) :
    ∃ r₁ subs, resolveSet g r = .ok r₁ ∧
      getAllSubdirectories fs (pathJoin "parts/sets" sel.robo.roboSet) = .ok subs ∧
      sel.robo.rd.draws = r.rd.draws
        ++ (if r.roboSet = "any" then [r.sets.length] else [])
        ++ (if r₁.roboSet = "set1" then [r.colors.length] else [])
        ++ (if r.bgSet = "any" ∧ "any" ∉ r.bgSets then [r.bgSets.length] else [])
        ++ (if 0 < fileCount fs (pathJoin "parts/sets" sel.robo.roboSet)
            then [fileCount fs (pathJoin "parts/sets" sel.robo.roboSet)] else [])
        ++ subs.map (fileCount fs)
        ++ (if ((r.bgSet ≠ "" ∧ r.bgSet ∈ r.bgSets) ∨ r.bgSet = "any") ∧
              0 < fileCount fs (pathJoin "parts/backgrounds" sel.robo.bgSet)
            then [fileCount fs (pathJoin "parts/backgrounds" sel.robo.bgSet)] else []) := by
  obtain ⟨r₁, r₂, r₃, found, dirs, chosen, rd', bg, r₄, k1, k2, k3, k4, k5, k6, k7⟩ :=
    select_ok g srt fs r sel h
  obtain ⟨a1, -, a3, a4, a5⟩ := resolveSet_spec g r r₁ k1
  obtain ⟨b1, -, b3, -, b5⟩ := resolveColor_spec g r₁ r₂ k2
  obtain ⟨c1, c2, c3⟩ := resolveBackground_spec g r₂ r₃ found k3
  obtain ⟨subs, d1, d2⟩ := categoryDirs_spec fs _ dirs k4
  have e1 := chooseFiles_draws g fs dirs r₃.rd rd' chosen k5
  obtain ⟨f1, f2, f3⟩ := chooseBackground_spec g fs _ r₄ found bg k6
  have hrobo : sel.robo = r₄ := by rw [k7]
  have hset : r₄.roboSet = r₃.roboSet := f1
  have hbgs : r₄.bgSet = r₃.bgSet := f2
  have hbg2 : r₂.bgSet = r.bgSet := by rw [b1, a1]
  have hbgs2 : r₂.bgSets = r.bgSets := by rw [b3, a3]
  refine ⟨r₁, subs, k1, ?_, ?_⟩
  · rw [hrobo, hset]; exact d1
  · rw [hrobo, f3, hset, hbgs]
    simp only [e1, c2, b5, a5, a4, hbg2, hbgs2]
    have hdirs : dirs.map (fileCount fs) =
        (if 0 < fileCount fs (pathJoin "parts/sets" r₃.roboSet)
          then [fileCount fs (pathJoin "parts/sets" r₃.roboSet)] else []) ++ subs.map (fileCount fs) := by
      rw [d2]
      split <;> simp
    have hany : (r.bgSet = "any" ∧ r.bgSet ∉ r.bgSets) ↔ (r.bgSet = "any" ∧ "any" ∉ r.bgSets) := by
      constructor
      · rintro ⟨x, y⟩; exact ⟨x, by rw [← x]; exact y⟩
      · rintro ⟨x, y⟩; exact ⟨x, by rw [x]; exact y⟩
    have hfound : found = true ↔ ((r.bgSet ≠ "" ∧ r.bgSet ∈ r.bgSets) ∨ r.bgSet = "any") := by
      rw [c3, hbg2, hbgs2]
    rw [hdirs]
    simp only [hany, hfound, List.append_assoc]

/-- Witness of C7: the demo catalog, set `any` and background `any`. -/
theorem draw_order_witness :
    ∃ r₁ subs, resolveSet digitSource ⟨⟨⟨0, 7⟩, []⟩, "any", "any", ["set1", "set2"], ["bg1"],
        ["blue", "red"]⟩ = .ok r₁ ∧
      getAllSubdirectories demoFS (pathJoin "parts/sets" "set2") = .ok subs ∧
      [2, 1, 1, 1, 2] = ([] : List Nat)
        ++ (if "any" = "any" then [["set1", "set2"].length] else [])
        ++ (if r₁.roboSet = "set1" then [["blue", "red"].length] else [])
        ++ (if "any" = "any" ∧ "any" ∉ ["bg1"] then [["bg1"].length] else [])
        ++ (if 0 < fileCount demoFS (pathJoin "parts/sets" "set2")
            then [fileCount demoFS (pathJoin "parts/sets" "set2")] else [])
        ++ subs.map (fileCount demoFS)
        ++ (if (("any" ≠ "" ∧ "any" ∈ ["bg1"]) ∨ "any" = "any") ∧
              0 < fileCount demoFS (pathJoin "parts/backgrounds" "bg1")
            then [fileCount demoFS (pathJoin "parts/backgrounds" "bg1")] else []) :=
  draw_order digitSource demoSorter demoFS
    ⟨⟨⟨0, 7⟩, []⟩, "any", "any", ["set1", "set2"], ["bg1"], ["blue", "red"]⟩
    ⟨⟨⟨⟨0, 1⟩, [2, 1, 1, 1, 2]⟩, "set2", "bg1", ["set1", "set2"], ["bg1"], ["blue", "red"]⟩,
      ["parts/sets/set2/body/b.png", "parts/sets/set2/readme.png"], "parts/backgrounds/bg1/y.png"⟩
    (by decide)

/-! ## Seeding and construction: the claims -/

theorem fnv64a_foldl_lt (bytes : List UInt8) :
    ∀ h : Nat, h < 2 ^ 64 →
      bytes.foldl (fun h b => ((h ^^^ b.toNat) * 1099511628211) % 2 ^ 64) h < 2 ^ 64 := by
  induction bytes with
  | nil => intro h hh; exact hh
  | cons b bs ih =>
    intro h _
    simp only [List.foldl_cons]
    exact ih _ (Nat.mod_lt _ (by decide))

theorem fnv64a_lt (bytes : List UInt8) : fnv64a bytes < 2 ^ 64 :=
  fnv64a_foldl_lt bytes _ (by decide)

/-- C11: `New` seeds the generator with the pair (H, (H >> 1) | 1), H being the
64-bit FNV-1a digest of the identifier; H fits in 64 bits, the second
component is odd and fits in 64 bits, no draw has been made yet, and equal
identifiers give equal pairs whatever the requests are. -/
theorem new_seed (fs : List Node) (hash : List UInt8) (roboSet bgSet : String) (r : RoboHash)
    (h : New fs hash roboSet bgSet = .ok r) :
    r.rd = { src := { hi := fnv64a hash, lo := (fnv64a hash >>> 1) ||| 1 }, draws := [] } ∧
      r.rd.src.hi < 2 ^ 64 ∧ r.rd.src.lo < 2 ^ 64 ∧ r.rd.src.lo % 2 = 1 ∧
      ∀ roboSet' bgSet' r', New fs hash roboSet' bgSet' = .ok r' → r'.rd = r.rd := by
  obtain ⟨sets, bgSets, colors, -, -, -, hreq⟩ := New_ok fs hash roboSet bgSet r h
  have hH := fnv64a_lt hash
  refine ⟨by rw [hreq], by rw [hreq]; exact hH, ?_, ?_, ?_⟩
  · rw [hreq]
    show (fnv64a hash >>> 1) ||| 1 < 2 ^ 64
    apply Nat.or_lt_two_pow
    · rw [Nat.shiftRight_eq_div_pow]; omega
    · decide
  · rw [hreq]
    show ((fnv64a hash >>> 1) ||| 1) % 2 = 1
    rw [Nat.mod_two_eq_one_iff_testBit_zero]
    simp [Nat.testBit_or]
  · intro roboSet' bgSet' r' h'
    obtain ⟨_, _, _, -, -, -, hreq'⟩ := New_ok fs hash roboSet' bgSet' r' h'
    rw [hreq, hreq']

/-- Witness of C11: the identifier `a`, whose FNV-1a digest is
0xaf63dc4c8601ec8c. -/
theorem new_seed_witness :
    (⟨⟨⟨12638187200555641996, 6319093600277820999⟩, []⟩, "", "", ["set1", "set2"], ["bg1"],
        ["blue", "red"]⟩ : RoboHash).rd =
        { src := { hi := fnv64a [97], lo := (fnv64a [97] >>> 1) ||| 1 }, draws := [] } ∧
      (12638187200555641996 : Nat) < 2 ^ 64 ∧ (6319093600277820999 : Nat) < 2 ^ 64 ∧
      6319093600277820999 % 2 = 1 ∧
      ∀ roboSet' bgSet' r', New demoFS [97] roboSet' bgSet' = .ok r' →
        r'.rd = ⟨⟨12638187200555641996, 6319093600277820999⟩, []⟩ :=
  new_seed demoFS [97] "" ""
    ⟨⟨⟨12638187200555641996, 6319093600277820999⟩, []⟩, "", "", ["set1", "set2"], ["bg1"],
      ["blue", "red"]⟩ (by decide)

theorem listDirs_error_iff (fs : List Node) (p : String) :
    (∃ e, listDirs fs p = .error e) ↔ ∃ e, ReadDir fs p = .error e := by
  unfold listDirs
  cases h : ReadDir fs p <;> simp [bind, Except.bind, pure, Except.pure]

/-- C18: `New` returns an error exactly when `parts/sets`, `parts/backgrounds`
or `parts/sets/set1` cannot be read, whatever the identifier and the requests
are; otherwise it returns the instance whose sets, background sets and colours
are what `listDirs` gives for these three directories and whose requested set
and background are stored unchanged. -/
theorem new_error_iff (fs : List Node) (hash : List UInt8) (roboSet bgSet : String) :
    ((∃ e, New fs hash roboSet bgSet = .error e) ↔
        ((∃ e, ReadDir fs "parts/sets" = .error e) ∨
          (∃ e, ReadDir fs "parts/backgrounds" = .error e) ∨
          (∃ e, ReadDir fs "parts/sets/set1" = .error e))) ∧
      (∀ hash' roboSet' bgSet', (∃ e, New fs hash roboSet bgSet = .error e) ↔
        ∃ e, New fs hash' roboSet' bgSet' = .error e) ∧
      (∀ r, New fs hash roboSet bgSet = .ok r →
        listDirs fs "parts/sets" = .ok r.sets ∧ listDirs fs "parts/backgrounds" = .ok r.bgSets ∧
          listDirs fs "parts/sets/set1" = .ok r.colors ∧ r.roboSet = roboSet ∧ r.bgSet = bgSet) ∧
      ((∀ e, New fs hash roboSet bgSet ≠ .error e) → ∃ r, New fs hash roboSet bgSet = .ok r) := by
  have key : ∀ (hash : List UInt8) (roboSet bgSet : String),
      (∃ e, New fs hash roboSet bgSet = .error e) ↔
        ((∃ e, ReadDir fs "parts/sets" = .error e) ∨
          (∃ e, ReadDir fs "parts/backgrounds" = .error e) ∨
          (∃ e, ReadDir fs "parts/sets/set1" = .error e)) := by
    intro hash roboSet bgSet
    rw [← listDirs_error_iff, ← listDirs_error_iff, ← listDirs_error_iff]
    unfold New
    cases h1 : listDirs fs "parts/sets" <;> cases h2 : listDirs fs "parts/backgrounds" <;>
      cases h3 : listDirs fs "parts/sets/set1" <;> simp [bind, Except.bind, pure, Except.pure]
  refine ⟨key hash roboSet bgSet, ?_, ?_, ?_⟩
  · intro hash' roboSet' bgSet'
    rw [key hash roboSet bgSet, key hash' roboSet' bgSet']
  · intro r hr
    obtain ⟨sets, bgSets, colors, h1, h2, h3, hreq⟩ := New_ok fs hash roboSet bgSet r hr
    rw [hreq]
    exact ⟨h1, h2, h3, rfl, rfl⟩
  · intro hne
    cases h : New fs hash roboSet bgSet with
    | error e => exact absurd h (hne e)
    | ok r => exact ⟨r, rfl⟩

/-! ## Colour, background and safety: the claims -/

theorem IntN_eq (g : Source) (rd rd' : Rand) (n v : Nat) (h : IntN g rd n = .ok (v, rd')) :
    v = (g.next rd.src n).1 ∧ rd' = ⟨(g.next rd.src n).2, rd.draws ++ [n]⟩ := by
  unfold IntN at h
  by_cases hn : n = 0
  · simp [hn] at h
  · simp only [hn, if_false, Except.ok.injEq, Prod.mk.injEq] at h
    exact ⟨h.1.symm, h.2.symm⟩

theorem resolveColor_cases (g : Source) (r r₂ : RoboHash) (h : resolveColor g r = .ok r₂) :
    (r.roboSet = "set1" ∧
        ∃ c, r.colors[(g.next r.rd.src r.colors.length).1]? = some c ∧ c ∈ r.colors ∧
          r₂ = { r with rd := ⟨(g.next r.rd.src r.colors.length).2, r.rd.draws ++ [r.colors.length]⟩,
                        roboSet := "set1/" ++ c }) ∨
      (r.roboSet ≠ "set1" ∧ r₂ = r) := by
  unfold resolveColor at h
  by_cases hs : r.roboSet = "set1"
  · left
    simp only [hs, if_true, bind, Except.bind] at h
    cases hI : IntN g r.rd r.colors.length with
    | error e => simp [hI] at h
    | ok p =>
      obtain ⟨v, rd'⟩ := p
      simp only [hI] at h
      obtain ⟨-, hlt, -⟩ := IntN_eq_ok g r.rd rd' _ v hI
      obtain ⟨hv, hrd⟩ := IntN_eq g r.rd rd' _ v hI
      obtain ⟨x, hx, hmem, hget⟩ := index_ok r.colors v hlt
      simp only [hx, pure, Except.pure, Except.ok.injEq] at h
      subst h
      subst hrd
      rw [hv] at hget
      exact ⟨hs, x, hget, hmem, rfl⟩
  · right
    simp only [hs, if_false, pure, Except.pure, Except.ok.injEq] at h
    exact ⟨hs, h.symm⟩

theorem pathJoin_set1 (c : String) : pathJoin "parts/sets" ("set1/" ++ c) = "parts/sets/set1/" ++ c := by
  unfold pathJoin
  rw [← String.append_assoc]
  rfl

/-- C13: in a completed selection the foreground files `roboParts` are the
sorted list of one file drawn from each category directory enumerated under
one set path (the path itself when it lists files, then what
`getAllSubdirectories` returns for it).  When the set resolved in the first
step is `set1`, one draw bounded by the number of colours is made, `c` is the
colour at the drawn index, and the set path is `parts/sets/set1/<c>`; for
every other resolved set the colour step changes neither instance nor
generator and the set path is `parts/sets/<set>`. -/
theorem colour_only_for_set1 (g : Source) (srt : Sorter) (fs : List Node) (r : RoboHash)
    (sel : Selection) (h : select g srt fs r = .ok sel) :
    ∃ r₁ r₂ r₃ found subs dirs chosen rd',
      resolveSet g r = .ok r₁ ∧ resolveColor g r₁ = .ok r₂ ∧
      resolveBackground g r₂ = .ok (r₃, found) ∧ r₃.roboSet = r₂.roboSet ∧
      sel.robo.roboSet = r₂.roboSet ∧
      getAllSubdirectories fs (pathJoin "parts/sets" r₂.roboSet) = .ok subs ∧
      dirs = (if 0 < fileCount fs (pathJoin "parts/sets" r₂.roboSet)
              then pathJoin "parts/sets" r₂.roboSet :: subs else subs) ∧
      chooseFiles g fs dirs r₃.rd = .ok (chosen, rd') ∧
      sel.roboParts = sortSlice srt less chosen ∧
      List.Forall₂ (fun d f => ∃ listing, getFilesFromDir fs d = .ok listing ∧ f ∈ listing)
        dirs chosen ∧
      ((r₁.roboSet = "set1" ∧
          ∃ c, r.colors[(g.next r₁.rd.src r.colors.length).1]? = some c ∧ c ∈ r.colors ∧
            r₂ = { r₁ with rd := ⟨(g.next r₁.rd.src r.colors.length).2,
                                  r₁.rd.draws ++ [r.colors.length]⟩,
                           roboSet := "set1/" ++ c } ∧
            pathJoin "parts/sets" r₂.roboSet = "parts/sets/set1/" ++ c) ∨
        (r₁.roboSet ≠ "set1" ∧ r₂ = r₁ ∧
          pathJoin "parts/sets" r₂.roboSet = "parts/sets/" ++ r₁.roboSet)) := by
  obtain ⟨r₁, r₂, r₃, found, dirs, chosen, rd', bg, r₄, k1, k2, k3, k4, k5, k6, k7⟩ :=
    select_ok g srt fs r sel h
  obtain ⟨-, -, -, a4, -⟩ := resolveSet_spec g r r₁ k1
  obtain ⟨c1, -, -⟩ := resolveBackground_spec g r₂ r₃ found k3
  obtain ⟨f1, -, -⟩ := chooseBackground_spec g fs _ r₄ found bg k6
  have hset : sel.robo.roboSet = r₂.roboSet := by
    rw [k7]
    show r₄.roboSet = r₂.roboSet
    rw [f1]
    exact c1
  rw [c1] at k4
  obtain ⟨subs, d1, d2⟩ := categoryDirs_spec fs _ dirs k4
  have hparts : sel.roboParts = sortSlice srt less chosen := by rw [k7]
  refine ⟨r₁, r₂, r₃, found, subs, dirs, chosen, rd', k1, k2, k3, c1, hset, d1, d2, k5, hparts,
    chooseFiles_forall₂ g fs dirs r₃.rd rd' chosen k5, ?_⟩
  rcases resolveColor_cases g r₁ r₂ k2 with ⟨hs, c, hget, hc, hr₂⟩ | ⟨hs, heq⟩
  · left
    rw [a4] at hget hc
    refine ⟨hs, c, hget, hc, hr₂.trans (by rw [a4]), ?_⟩
    rw [hr₂]
    exact pathJoin_set1 c
  · right
    refine ⟨hs, heq, ?_⟩
    rw [heq]
    unfold pathJoin
    rfl

/-- Witness of C13: set `set1` of the demo catalog; the colour drawn is `red`. -/
theorem colour_only_for_set1_witness :
    ∃ r₁ r₂ r₃ found subs dirs chosen rd',
      resolveSet digitSource ⟨⟨⟨0, 1⟩, []⟩, "set1", "", ["set1", "set2"], ["bg1"], ["blue", "red"]⟩ =
        .ok r₁ ∧ resolveColor digitSource r₁ = .ok r₂ ∧
      resolveBackground digitSource r₂ = .ok (r₃, found) ∧ r₃.roboSet = r₂.roboSet ∧
      "set1/red" = r₂.roboSet ∧
      getAllSubdirectories demoFS (pathJoin "parts/sets" r₂.roboSet) = .ok subs ∧
      dirs = (if 0 < fileCount demoFS (pathJoin "parts/sets" r₂.roboSet)
              then pathJoin "parts/sets" r₂.roboSet :: subs else subs) ∧
      chooseFiles digitSource demoFS dirs r₃.rd = .ok (chosen, rd') ∧
      ["parts/sets/set1/red/001#Eyes/000#1.png", "parts/sets/set1/red/000#Mouth/000#2.png"] =
        sortSlice demoSorter less chosen ∧
      List.Forall₂ (fun d f => ∃ listing, getFilesFromDir demoFS d = .ok listing ∧ f ∈ listing)
        dirs chosen ∧
      ((r₁.roboSet = "set1" ∧
          ∃ c, ["blue", "red"][(digitSource.next r₁.rd.src ["blue", "red"].length).1]? = some c ∧
            c ∈ ["blue", "red"] ∧
            r₂ = { r₁ with rd := ⟨(digitSource.next r₁.rd.src ["blue", "red"].length).2,
                                  r₁.rd.draws ++ [["blue", "red"].length]⟩,
                           roboSet := "set1/" ++ c } ∧
            pathJoin "parts/sets" r₂.roboSet = "parts/sets/set1/" ++ c) ∨
        (r₁.roboSet ≠ "set1" ∧ r₂ = r₁ ∧
          pathJoin "parts/sets" r₂.roboSet = "parts/sets/" ++ r₁.roboSet)) :=
  colour_only_for_set1 digitSource demoSorter demoFS
    ⟨⟨⟨0, 1⟩, []⟩, "set1", "", ["set1", "set2"], ["bg1"], ["blue", "red"]⟩
    ⟨⟨⟨⟨0, 0⟩, [2, 1, 1]⟩, "set1/red", "", ["set1", "set2"], ["bg1"], ["blue", "red"]⟩,
      ["parts/sets/set1/red/001#Eyes/000#1.png", "parts/sets/set1/red/000#Mouth/000#2.png"], ""⟩
    (by decide)

/-- C14: when a background set is resolved and its directory lists no visible
file, the background step raises nothing and makes no draw, no background
file is selected, and `Assemble` returns what composing the foreground files
alone gives: the parts drawn over the blank canvas (or the error of an empty
part list or of a part that fails to decode). -/
theorem empty_background_is_tolerated (g : Source) (srt : Sorter) (fs : List Node) (r r₃ : RoboHash)
    (roboParts : List String) (rd' : Rand) (hres : resolve g r = .ok (r₃, true))
    (hfg : getListOfFiles g srt fs r₃.rd (pathJoin "parts/sets" r₃.roboSet) = .ok (roboParts, rd'))
    (hbg : getFilesFromDir fs (pathJoin "parts/backgrounds" r₃.bgSet) = .ok []) :
    chooseBackground g fs { r₃ with rd := rd' } true = .ok ("", { r₃ with rd := rd' }) ∧
      select g srt fs r =
        .ok { robo := { r₃ with rd := rd' }, roboParts := roboParts, background := "" } ∧
      Assemble g srt fs r =
        (if roboParts.length = 0 then .error (.noParts (pathJoin "parts/sets" r₃.roboSet))
         else drawParts fs roboParts (.newRGBA canvasRect)) := by
  have hcb : chooseBackground g fs { r₃ with rd := rd' } true = .ok ("", { r₃ with rd := rd' }) := by
    simp [chooseBackground, hbg, bind, Except.bind, pure, Except.pure]
  have hsel : select g srt fs r =
      .ok { robo := { r₃ with rd := rd' }, roboParts := roboParts, background := "" } := by
    simp only [select, hres, hfg, bind, Except.bind, hcb, pure, Except.pure]
  refine ⟨hcb, hsel, ?_⟩
  simp only [Assemble, hsel, bind, Except.bind, compose]
  by_cases hlen : roboParts.length = 0
  · simp [hlen, throw, throwThe, MonadExceptOf.throw]
  · simp only [hlen, if_false]
    cases hd : drawParts fs roboParts (.newRGBA canvasRect) with
    | error e => rfl
    | ok img => simp [pure, Except.pure]

/-- Witness of C14: the background set `bg0` holds only a hidden file. -/
theorem empty_background_is_tolerated_witness :
    chooseBackground digitSource emptyBgFS
        { (⟨⟨⟨0, 0⟩, []⟩, "set2", "bg0", ["set2"], ["bg0"], []⟩ : RoboHash) with rd := ⟨⟨0, 0⟩, [1]⟩ }
        true =
        .ok ("", { (⟨⟨⟨0, 0⟩, []⟩, "set2", "bg0", ["set2"], ["bg0"], []⟩ : RoboHash) with
          rd := ⟨⟨0, 0⟩, [1]⟩ }) ∧
      select digitSource demoSorter emptyBgFS ⟨⟨⟨0, 0⟩, []⟩, "set2", "bg0", ["set2"], ["bg0"], []⟩ =
        .ok { robo := { (⟨⟨⟨0, 0⟩, []⟩, "set2", "bg0", ["set2"], ["bg0"], []⟩ : RoboHash) with
                rd := ⟨⟨0, 0⟩, [1]⟩ },
              roboParts := ["parts/sets/set2/body/b.png"], background := "" } ∧
      Assemble digitSource demoSorter emptyBgFS ⟨⟨⟨0, 0⟩, []⟩, "set2", "bg0", ["set2"], ["bg0"], []⟩ =
        (if ["parts/sets/set2/body/b.png"].length = 0
         then .error (.noParts (pathJoin "parts/sets" "set2"))
         else drawParts emptyBgFS ["parts/sets/set2/body/b.png"] (.newRGBA canvasRect)) :=
  empty_background_is_tolerated digitSource demoSorter emptyBgFS
    ⟨⟨⟨0, 0⟩, []⟩, "set2", "bg0", ["set2"], ["bg0"], []⟩
    ⟨⟨⟨0, 0⟩, []⟩, "set2", "bg0", ["set2"], ["bg0"], []⟩
    ["parts/sets/set2/body/b.png"] ⟨⟨0, 0⟩, [1]⟩ (by decide) (by decide) (by decide)

theorem resolveSet_total (g : Source) (r : RoboHash) (hne : r.sets ≠ []) :
    ∃ r₁, resolveSet g r = .ok r₁ := by
  have hpos : 0 < r.sets.length := List.length_pos.mpr hne
  unfold resolveSet
  by_cases hany : r.roboSet = "any"
  · obtain ⟨hI, hlt⟩ := IntN_ok g r.rd r.sets.length hpos
    obtain ⟨x, hx, -, -⟩ := index_ok r.sets _ hlt
    exact ⟨_, by simp only [hany, if_true, hI, bind, Except.bind, hx, pure, Except.pure]; rfl⟩
  · simp only [hany, if_false]
    split
    · exact ⟨r, rfl⟩
    · obtain ⟨x, hx, -, -⟩ := index_ok r.sets 0 hpos
      exact ⟨_, by simp only [hx, bind, Except.bind, pure, Except.pure]; rfl⟩

theorem resolveColor_total (g : Source) (r : RoboHash) (hne : r.roboSet = "set1" → r.colors ≠ []) :
    ∃ r₂, resolveColor g r = .ok r₂ := by
  unfold resolveColor
  by_cases hs : r.roboSet = "set1"
  · have hpos : 0 < r.colors.length := List.length_pos.mpr (hne hs)
    obtain ⟨hI, hlt⟩ := IntN_ok g r.rd r.colors.length hpos
    obtain ⟨x, hx, -, -⟩ := index_ok r.colors _ hlt
    exact ⟨_, by simp only [hs, if_true, hI, bind, Except.bind, hx, pure, Except.pure]; rfl⟩
  · exact ⟨r, by simp only [hs, if_false]; rfl⟩

theorem resolveBackground_total (g : Source) (r : RoboHash) (hne : r.bgSet = "any" → r.bgSets ≠ []) :
    ∃ r₃ found, resolveBackground g r = .ok (r₃, found) := by
  unfold resolveBackground
  simp only
  split
  · rename_i hc
    have hany : r.bgSet = "any" := by
      simp only [Bool.and_eq_true, decide_eq_true_eq] at hc
      exact hc.2
    have hpos : 0 < r.bgSets.length := List.length_pos.mpr (hne hany)
    obtain ⟨hI, hlt⟩ := IntN_ok g r.rd r.bgSets.length hpos
    obtain ⟨x, hx, -, -⟩ := index_ok r.bgSets _ hlt
    exact ⟨_, true, by simp only [hI, bind, Except.bind, hx, pure, Except.pure]; rfl⟩
  · exact ⟨r, _, rfl⟩

theorem chooseFiles_error (g : Source) (fs : List Node) :
    ∀ (dirs : List String) (rd : Rand) (e : Failure),
      chooseFiles g fs dirs rd = .error e → e.isPanic = false
  | [], rd, e, h => by simp [chooseFiles, pure, Except.pure] at h
  | dir :: rest, rd, e, h => by
    rcases getRandomFile_spec g fs rd dir with ⟨files, f, rd₁, -, -, -, hr, -⟩ | ⟨-, hr⟩ | ⟨-, hr⟩
    · simp only [chooseFiles, hr, bind, Except.bind] at h
      cases hc : chooseFiles g fs rest rd₁ with
      | error e' =>
        simp only [hc, Except.error.injEq] at h
        subst h
        exact chooseFiles_error g fs rest rd₁ e' hc
      | ok q => simp [hc, pure, Except.pure] at h
    · simp only [chooseFiles, hr, bind, Except.bind, Except.error.injEq] at h
      subst h; rfl
    · simp only [chooseFiles, hr, bind, Except.bind, Except.error.injEq] at h
      subst h; rfl

theorem ReadDir_error (fs : List Node) (p : String) (e : Failure) (h : ReadDir fs p = .error e) :
    e = .readDir p := by
  unfold ReadDir at h
  split at h
  · simp at h
  · simp only [Except.error.injEq] at h
    exact h.symm

theorem getListOfFiles_error (g : Source) (srt : Sorter) (fs : List Node) (rd : Rand) (p : String) (e : Failure)
    (h : getListOfFiles g srt fs rd p = .error e) : e.isPanic = false := by
  unfold getListOfFiles at h
  simp only [bind, Except.bind] at h
  cases hd : categoryDirs fs p with
  | error e' =>
    simp only [hd, Except.error.injEq] at h
    subst h
    unfold categoryDirs getAllSubdirectories at hd
    simp only [bind, Except.bind] at hd
    cases hr : ReadDir fs p with
    | error e'' =>
      simp only [hr, Except.error.injEq] at hd
      subst hd
      rw [ReadDir_error fs p e'' hr]
      rfl
    | ok es =>
      simp only [hr, pure, Except.pure] at hd
      cases hf : getFilesFromDir fs p with
      | error x => simp [hf] at hd
      | ok base =>
        simp only [hf] at hd
        split at hd <;> simp at hd
  | ok dirs =>
    simp only [hd] at h
    cases hc : chooseFiles g fs dirs rd with
    | error e' =>
      simp only [hc, Except.error.injEq] at h
      subst h
      exact chooseFiles_error g fs dirs rd e' hc
    | ok q => simp [hc, pure, Except.pure] at h

theorem chooseBackground_error (g : Source) (fs : List Node) (r : RoboHash) (found : Bool)
    (e : Failure) (h : chooseBackground g fs r found = .error e) : e.isPanic = false := by
  unfold chooseBackground at h
  cases found with
  | false => simp [pure, Except.pure] at h
  | true =>
    simp only [if_true, bind, Except.bind] at h
    cases hf : getFilesFromDir fs (pathJoin "parts/backgrounds" r.bgSet) with
    | error e' =>
      simp only [hf, Except.error.injEq] at h
      subst h
      rw [getFilesFromDir_error fs _ e' hf]
      rfl
    | ok files =>
      simp only [hf] at h
      by_cases hpos : files.length > 0
      · obtain ⟨hI, hlt⟩ := IntN_ok g r.rd files.length hpos
        obtain ⟨x, hx, -, -⟩ := index_ok files _ hlt
        simp [hpos, hI, hx, pure, Except.pure] at h
      · simp [hpos, pure, Except.pure] at h

theorem openDecode_error (fs : List Node) (file : String) (e : Failure)
    (h : openDecode fs file = .error e) : e.isPanic = false := by
  unfold openDecode at h
  split at h
  · simp only [Except.error.injEq] at h
    subst h; rfl
  · simp at h
  · simp only [Except.error.injEq] at h
    subst h; rfl

theorem drawParts_error (fs : List Node) :
    ∀ (ps : List String) (acc : Image) (e : Failure), drawParts fs ps acc = .error e →
      e.isPanic = false
  | [], acc, e, h => by simp [drawParts, pure, Except.pure] at h
  | p :: ps, acc, e, h => by
    simp only [drawParts, bind, Except.bind] at h
    cases hd : openDecode fs p with
    | error e' =>
      simp only [hd, Except.error.injEq] at h
      subst h
      exact openDecode_error fs p e' hd
    | ok img =>
      simp only [hd] at h
      exact drawParts_error fs ps _ e h

/-- C19: on an instance whose list of sets is not empty, whose list of
colours is not empty when the resolved set is `set1`, and whose list of
background sets is not empty when the requested background is `any`, the
three resolution steps of `Assemble` succeed, and the selection phase raises
no panic: no index is out of range and no draw is asked with a bound of zero;
a selection that fails ends with a returned error. -/
theorem selection_never_panics (g : Source) (srt : Sorter) (fs : List Node) (r : RoboHash)
    (hsets : r.sets ≠ [])
    (hcolors : ∀ r₁, resolveSet g r = .ok r₁ → r₁.roboSet = "set1" → r.colors ≠ [])
    (hbg : r.bgSet = "any" → r.bgSets ≠ []) :
    (∃ r₃ found, resolve g r = .ok (r₃, found)) ∧
      (∀ e, select g srt fs r = .error e → e.isPanic = false) ∧
      (∀ e, Assemble g srt fs r = .error e → e.isPanic = false) := by
  obtain ⟨r₁, k1⟩ := resolveSet_total g r hsets
  obtain ⟨a1, -, a3, a4, -⟩ := resolveSet_spec g r r₁ k1
  obtain ⟨r₂, k2⟩ := resolveColor_total g r₁ (fun hs => by rw [a4]; exact hcolors r₁ k1 hs)
  obtain ⟨b1, -, b3, -, -⟩ := resolveColor_spec g r₁ r₂ k2
  obtain ⟨r₃, found, k3⟩ := resolveBackground_total g r₂
    (fun hb => by rw [b3, a3]; exact hbg (by rw [← a1, ← b1]; exact hb))
  have hres : resolve g r = .ok (r₃, found) := by
    simp only [resolve, k1, k2, k3, bind, Except.bind]
  have hsel : ∀ e, select g srt fs r = .error e → e.isPanic = false := by
    intro e h
    simp only [select, hres, bind, Except.bind] at h
    cases hl : getListOfFiles g srt fs r₃.rd (pathJoin "parts/sets" r₃.roboSet) with
    | error e' =>
      simp only [hl, Except.error.injEq] at h
      subst h
      exact getListOfFiles_error g srt fs _ _ e' hl
    | ok q =>
      obtain ⟨parts, rd'⟩ := q
      simp only [hl] at h
      cases hb : chooseBackground g fs { r₃ with rd := rd' } found with
      | error e' =>
        simp only [hb, Except.error.injEq] at h
        subst h
        exact chooseBackground_error g fs _ found e' hb
      | ok t => simp [hb, pure, Except.pure] at h
  refine ⟨⟨r₃, found, hres⟩, hsel, ?_⟩
  intro e h
  simp only [Assemble, bind, Except.bind] at h
  cases hs : select g srt fs r with
  | error e' =>
    simp only [hs, Except.error.injEq] at h
    subst h
    exact hsel e' hs
  | ok sel =>
    simp only [hs, compose] at h
    split at h
    · simp only [throw, throwThe, MonadExceptOf.throw, Except.error.injEq] at h
      subst h; rfl
    · simp only [bind, Except.bind] at h
      cases hd : drawParts fs sel.roboParts (.newRGBA canvasRect) with
      | error e' =>
        simp only [hd, Except.error.injEq] at h
        subst h
        exact drawParts_error fs _ _ e' hd
      | ok img =>
        simp only [hd] at h
        split at h
        · cases ho : openDecode fs sel.background with
          | error e' =>
            simp only [ho, Except.error.injEq] at h
            subst h
            exact openDecode_error fs _ e' ho
          | ok bgImg => simp [ho, pure, Except.pure] at h
        · simp [pure, Except.pure] at h

/-- Witness of C19: the demo catalog, set `any` and background `any`. -/
theorem selection_never_panics_witness :
    (∃ r₃ found, resolve digitSource
        ⟨⟨⟨0, 7⟩, []⟩, "any", "any", ["set1", "set2"], ["bg1"], ["blue", "red"]⟩ = .ok (r₃, found)) ∧
      (∀ e, select digitSource demoSorter demoFS
        ⟨⟨⟨0, 7⟩, []⟩, "any", "any", ["set1", "set2"], ["bg1"], ["blue", "red"]⟩ = .error e →
          e.isPanic = false) ∧
      (∀ e, Assemble digitSource demoSorter demoFS
        ⟨⟨⟨0, 7⟩, []⟩, "any", "any", ["set1", "set2"], ["bg1"], ["blue", "red"]⟩ = .error e →
          e.isPanic = false) :=
  selection_never_panics digitSource demoSorter demoFS
    ⟨⟨⟨0, 7⟩, []⟩, "any", "any", ["set1", "set2"], ["bg1"], ["blue", "red"]⟩
    (by decide) (fun _ _ _ => by decide) (fun _ => by decide)

theorem resolveBackground_nodraw (g : Source) (r : RoboHash)
    (h : r.bgSet ≠ "any" ∨ r.bgSet ∈ r.bgSets) :
    ∃ found, resolveBackground g r = .ok (r, found) := by
  unfold resolveBackground
  simp only
  split
  · rename_i hc
    simp only [Bool.and_eq_true, Bool.not_eq_true', Bool.and_eq_false_imp, bne_iff_ne, ne_eq,
      decide_eq_true_eq] at hc
    obtain ⟨hnf, hany⟩ := hc
    rcases h with h | h
    · exact absurd hany h
    · have hne : ¬ r.bgSet = "" := by rw [hany]; decide
      have := hnf hne
      simp [h] at this
  · exact ⟨_, rfl⟩

theorem foreground_nodraw (g : Source) (srt : Sorter) (fs : List Node) (r : RoboHash) (b : String)
    (h : b ≠ "any" ∨ b ∈ r.bgSets) :
    foreground g srt fs { r with bgSet := b } =
      (resolveSet g r).bind fun a => (resolveColor g a).bind fun c =>
        getListOfFiles g srt fs c.rd (pathJoin "parts/sets" c.roboSet) := by
  unfold foreground resolve
  simp only [bind, Except.bind]
  rw [resolveSet_bgSet]
  cases hA : resolveSet g r with
  | error e => rfl
  | ok a =>
    obtain ⟨-, -, a3, -, -⟩ := resolveSet_spec g r a hA
    simp only [Except.map]
    rw [resolveColor_bgSet]
    cases hB : resolveColor g a with
    | error e => rfl
    | ok c =>
      obtain ⟨-, -, b3, -, -⟩ := resolveColor_spec g a c hB
      simp only [Except.map]
      obtain ⟨found, hf⟩ := resolveBackground_nodraw g { c with bgSet := b }
        (by
          show b ≠ "any" ∨ b ∈ c.bgSets
          rw [b3, a3]
          exact h)
      rw [hf]

theorem select_foreground (g : Source) (srt : Sorter) (fs : List Node) (r : RoboHash) (sel : Selection)
    (h : select g srt fs r = .ok sel) : ∃ rd, foreground g srt fs r = .ok (sel.roboParts, rd) := by
  unfold select at h
  unfold foreground
  simp only [bind, Except.bind] at h ⊢
  cases hres : resolve g r with
  | error e => simp [hres] at h
  | ok p =>
    obtain ⟨r₃, found⟩ := p
    simp only [hres] at h ⊢
    cases hl : getListOfFiles g srt fs r₃.rd (pathJoin "parts/sets" r₃.roboSet) with
    | error e => simp [hl] at h
    | ok q =>
      obtain ⟨parts, rd'⟩ := q
      simp only [hl] at h
      cases hb : chooseBackground g fs { r₃ with rd := rd' } found with
      | error e => simp [hb] at h
      | ok t =>
        simp only [hb, pure, Except.pure, Except.ok.injEq] at h
        subst h
        exact ⟨rd', rfl⟩

/-- C20: for two background requests that trigger no random background-set
draw (each is an available background-set name or is not `any`), with the
same identifier and set request, lines 56-96 of `Assemble` give the same
result: the same foreground file list in layer order and the same generator
state, or the same failure; so two completed selections hold the same
foreground file list. -/
theorem foreground_independent_of_named_background (g : Source) (srt : Sorter) (fs : List Node)
    (hash : List UInt8) (roboSet bgSet bgSet' : String) (r r' : RoboHash)
    (hr : New fs hash roboSet bgSet = .ok r) (hr' : New fs hash roboSet bgSet' = .ok r')
    (hb : bgSet ≠ "any" ∨ bgSet ∈ r.bgSets) (hb' : bgSet' ≠ "any" ∨ bgSet' ∈ r'.bgSets) :
    foreground g srt fs r = foreground g srt fs r' ∧
      ∀ sel sel', select g srt fs r = .ok sel → select g srt fs r' = .ok sel' →
        sel.roboParts = sel'.roboParts := by
  obtain ⟨sets, bgSets, colors, h1, h2, h3, hreq⟩ := New_ok fs hash roboSet bgSet r hr
  obtain ⟨sets', bgSets', colors', h1', h2', h3', hreq'⟩ := New_ok fs hash roboSet bgSet' r' hr'
  rw [h1] at h1'
  rw [h2] at h2'
  rw [h3] at h3'
  simp only [Except.ok.injEq] at h1' h2' h3'
  subst h1' h2' h3'
  have e1 : r = { r with bgSet := bgSet } := by rw [hreq]
  have e2 : r' = { r with bgSet := bgSet' } := by rw [hreq, hreq']
  have hbs : r.bgSets = bgSets := by rw [hreq]
  have hbs' : r'.bgSets = bgSets := by rw [hreq']
  rw [hbs] at hb
  rw [hbs'] at hb'
  have hfg : foreground g srt fs r = foreground g srt fs r' := by
    rw [e1, e2]
    rw [foreground_nodraw g srt fs r bgSet (by rw [hbs]; exact hb)]
    have := foreground_nodraw g srt fs r bgSet' (by rw [hbs]; exact hb')
    simpa using this.symm
  refine ⟨hfg, ?_⟩
  intro sel sel' hs hs'
  obtain ⟨rd, k⟩ := select_foreground g srt fs r sel hs
  obtain ⟨rd', k'⟩ := select_foreground g srt fs r' sel' hs'
  rw [hfg, k'] at k
  simp only [Except.ok.injEq, Prod.mk.injEq] at k
  exact k.1.symm

/-- Witness of C20: backgrounds `bg1` and `nonexistent` on the demo catalog. -/
theorem foreground_independent_of_named_background_witness :
    foreground digitSource demoSorter demoFS
        ⟨⟨⟨12638183902020757363, 6319091951010378681⟩, []⟩, "set1", "bg1", ["set1", "set2"], ["bg1"],
          ["blue", "red"]⟩ =
      foreground digitSource demoSorter demoFS
        ⟨⟨⟨12638183902020757363, 6319091951010378681⟩, []⟩, "set1", "nonexistent", ["set1", "set2"],
          ["bg1"], ["blue", "red"]⟩ ∧
      ∀ sel sel',
        select digitSource demoSorter demoFS
          ⟨⟨⟨12638183902020757363, 6319091951010378681⟩, []⟩, "set1", "bg1", ["set1", "set2"],
            ["bg1"], ["blue", "red"]⟩ = .ok sel →
        select digitSource demoSorter demoFS
          ⟨⟨⟨12638183902020757363, 6319091951010378681⟩, []⟩, "set1", "nonexistent",
            ["set1", "set2"], ["bg1"], ["blue", "red"]⟩ = .ok sel' →
        sel.roboParts = sel'.roboParts :=
  foreground_independent_of_named_background digitSource demoSorter demoFS [100] "set1" "bg1" "nonexistent"
    ⟨⟨⟨12638183902020757363, 6319091951010378681⟩, []⟩, "set1", "bg1", ["set1", "set2"], ["bg1"],
      ["blue", "red"]⟩
    ⟨⟨⟨12638183902020757363, 6319091951010378681⟩, []⟩, "set1", "nonexistent", ["set1", "set2"],
      ["bg1"], ["blue", "red"]⟩
    (by decide) (by decide) (by decide) (by decide)

/-! ## Catalog reader: auxiliary facts -/

theorem ltChars_neg_trans : ∀ a b c : List Char, ltChars a c = true →
    ltChars a b = true ∨ ltChars b c = true
  | [], [], c, h => Or.inr h
  | [], _ :: _, _, _ => Or.inl (by simp [ltChars])
  | _ :: _, _, [], h => by simp [ltChars] at h
  | _ :: _, [], _ :: _, _ => Or.inr (by simp [ltChars])
  | x :: xs, y :: ys, z :: zs, h => by
    simp only [ltChars] at h ⊢
    by_cases hxz : x.toNat < z.toNat
    · by_cases hxy : x.toNat < y.toNat
      · left; simp [hxy]
      · right
        have : y.toNat < z.toNat := by omega
        simp [this]
    · by_cases hzx : z.toNat < x.toNat
      · simp [hxz, hzx] at h
      · simp only [hxz, hzx, if_false] at h
        by_cases hxy : x.toNat < y.toNat
        · left; simp [hxy]
        · by_cases hyx : y.toNat < x.toNat
          · right
            have : y.toNat < z.toNat := by omega
            simp [this]
          · have h1 : ¬ y.toNat < z.toNat := by omega
            have h2 : ¬ z.toNat < y.toNat := by omega
            simp only [hxy, hyx, h1, h2, if_false]
            exact ltChars_neg_trans xs ys zs h

theorem ltChars_append_left : ∀ (p a b : List Char), ltChars (p ++ a) (p ++ b) = ltChars a b
  | [], _, _ => rfl
  | c :: p, a, b => by
    simp only [List.cons_append, ltChars, Nat.lt_irrefl, if_false]
    exact ltChars_append_left p a b

theorem strLt_pathJoin (d a b : String) : strLt (pathJoin d a) (pathJoin d b) = strLt a b := by
  unfold strLt pathJoin
  simp only [String.data_append, List.append_assoc]
  exact ltChars_append_left _ _ _

theorem strLe_total (a b : String) : strLt b a = false ∨ strLt a b = false := by
  cases h : strLt b a with
  | false => exact Or.inl rfl
  | true => exact Or.inr (ltChars_asymm _ _ h)

theorem strLe_trans (a b c : String) (h₁ : strLt b a = false) (h₂ : strLt c b = false) :
    strLt c a = false := by
  cases h : strLt c a with
  | false => rfl
  | true =>
    rcases ltChars_neg_trans c.data b.data a.data h with k | k
    · unfold strLt at h₂; rw [h₂] at k; exact absurd k Bool.false_ne_true
    · unfold strLt at h₁; rw [h₁] at k; exact absurd k Bool.false_ne_true

theorem sortStrings_sorted (l : List String) :
    (sortStrings l).Sorted (fun a b => strLt b a = false) :=
  @List.sorted_insertionSort String (fun a b => strLt b a = false) _
    ⟨strLe_total⟩ ⟨strLe_trans⟩ l

theorem sortStrings_perm (l : List String) : (sortStrings l).Perm l :=
  List.perm_insertionSort _ l

theorem sortStrings_map_pathJoin (d : String) (l : List String) :
    sortStrings (l.map (pathJoin d)) = (sortStrings l).map (pathJoin d) := by
  unfold sortStrings
  symm
  apply List.map_insertionSort
  intro a _ b _
  rw [strLt_pathJoin]

theorem filterMap_ite {α β : Type} (p : α → Bool) (f : α → β) :
    ∀ l : List α, l.filterMap (fun x => if p x = true then some (f x) else none) =
      (l.filter p).map f
  | [] => rfl
  | x :: xs => by
    cases hp : p x <;> simp [List.filterMap_cons, List.filter_cons, hp, filterMap_ite p f xs]

theorem listDirs_eq (fs : List Node) (path : String) (entries : List Node)
    (h : ReadDir fs path = .ok entries) :
    listDirs fs path =
      .ok (sortStrings ((entries.filter fun e => e.isDir && !hasDotPrefix e.name).map Node.name)) := by
  unfold listDirs
  simp only [h, bind, Except.bind, pure, Except.pure]
  rw [filterMap_ite (fun e : Node => e.isDir && !hasDotPrefix e.name) Node.name]

theorem getFilesFromDir_eq (fs : List Node) (path : String) (entries : List Node)
    (h : ReadDir fs path = .ok entries) :
    getFilesFromDir fs path =
      .ok (sortStrings ((entries.filter fun e => !e.isDir && !hasDotPrefix e.name).map
        fun e => pathJoin path e.name)) := by
  unfold getFilesFromDir
  simp only [h, bind, Except.bind, pure, Except.pure]
  rw [filterMap_ite (fun e : Node => !e.isDir && !hasDotPrefix e.name)
    (fun e : Node => pathJoin path e.name)]

theorem mem_filter_dir (entries : List Node) (n : String) :
    n ∈ (entries.filter fun e => e.isDir && !hasDotPrefix e.name).map Node.name ↔
      ∃ sub, Node.dir n sub ∈ entries ∧ hasDotPrefix n = false := by
  simp only [List.mem_map, List.mem_filter, Bool.and_eq_true, Bool.not_eq_true']
  constructor
  · rintro ⟨e, ⟨he, hd, hh⟩, rfl⟩
    cases e with
    | file m png => simp [Node.isDir] at hd
    | dir m sub => exact ⟨sub, he, hh⟩
  · rintro ⟨sub, he, hh⟩
    exact ⟨.dir n sub, ⟨he, rfl, hh⟩, rfl⟩

theorem mem_filter_file (entries : List Node) (path f : String) :
    f ∈ (entries.filter fun e => !e.isDir && !hasDotPrefix e.name).map
        (fun e => pathJoin path e.name) ↔
      ∃ n png, Node.file n png ∈ entries ∧ hasDotPrefix n = false ∧ f = pathJoin path n := by
  simp only [List.mem_map, List.mem_filter, Bool.and_eq_true, Bool.not_eq_true']
  constructor
  · rintro ⟨e, ⟨he, hd, hh⟩, rfl⟩
    cases e with
    | file m png => exact ⟨m, png, he, hh, rfl⟩
    | dir m sub => simp [Node.isDir] at hd
  · rintro ⟨n, png, he, hh, rfl⟩
    exact ⟨.file n png, ⟨he, rfl, hh⟩, rfl⟩

/-! ## Catalog reader: the claims -/

/-- C16: on a readable directory `listDirs` returns the names of the
immediate entries that are directories and whose names do not start with a
dot, one name for each such entry, in ascending lexicographic order; a name is
returned only if an immediate entry that is a directory has it, so files and
deeper descendants do not appear. -/
theorem listDirs_exact (fs : List Node) (path : String) (entries : List Node)
    (h : ReadDir fs path = .ok entries) :
    ∃ names, listDirs fs path = .ok names ∧
      names.Perm ((entries.filter fun e => e.isDir && !hasDotPrefix e.name).map Node.name) ∧
      names.Sorted (fun a b => strLt b a = false) ∧
      ∀ n, n ∈ names ↔ ∃ sub, Node.dir n sub ∈ entries ∧ hasDotPrefix n = false := by
  refine ⟨_, listDirs_eq fs path entries h, sortStrings_perm _, sortStrings_sorted _, ?_⟩
  intro n
  rw [(sortStrings_perm _).mem_iff]
  exact mem_filter_dir entries n

/-- Witness of C16: `parts/sets/set2` of the demo catalog, which holds a
directory, a hidden directory and a file. -/
theorem listDirs_exact_witness :
    ∃ names, listDirs demoFS "parts/sets/set2" = .ok names ∧
      names.Perm (([.dir "body" [.file "b.png" (pic 512 512 6)], .dir ".git" [],
        .file "readme.png" (pic 10 10 7)].filter
          fun e => e.isDir && !hasDotPrefix e.name).map Node.name) ∧
      names.Sorted (fun a b => strLt b a = false) ∧
      ∀ n, n ∈ names ↔ ∃ sub, Node.dir n sub ∈ [Node.dir "body" [.file "b.png" (pic 512 512 6)],
        .dir ".git" [], .file "readme.png" (pic 10 10 7)] ∧ hasDotPrefix n = false :=
  listDirs_exact demoFS "parts/sets/set2"
    [.dir "body" [.file "b.png" (pic 512 512 6)], .dir ".git" [], .file "readme.png" (pic 10 10 7)]
    rfl

/-- C17: on a readable directory `getFilesFromDir` returns the full paths
(directory path, slash, name) of the immediate entries that are not
directories and whose names do not start with a dot, one path for each such
entry, in ascending lexicographic order, which is the order of the bare
names. -/
theorem getFilesFromDir_exact (fs : List Node) (path : String) (entries : List Node)
    (h : ReadDir fs path = .ok entries) :
    ∃ files, getFilesFromDir fs path = .ok files ∧
      files.Perm ((entries.filter fun e => !e.isDir && !hasDotPrefix e.name).map
        fun e => pathJoin path e.name) ∧
      files.Sorted (fun a b => strLt b a = false) ∧
      files = (sortStrings ((entries.filter fun e => !e.isDir && !hasDotPrefix e.name).map
        Node.name)).map (pathJoin path) ∧
      ∀ f, f ∈ files ↔
        ∃ n png, Node.file n png ∈ entries ∧ hasDotPrefix n = false ∧ f = pathJoin path n := by
  refine ⟨_, getFilesFromDir_eq fs path entries h, sortStrings_perm _, sortStrings_sorted _, ?_, ?_⟩
  · rw [← sortStrings_map_pathJoin, List.map_map]
    rfl
  · intro f
    rw [(sortStrings_perm _).mem_iff]
    exact mem_filter_file entries path f

/-- Witness of C17: `parts/backgrounds/bg1` of the demo catalog. -/
theorem getFilesFromDir_exact_witness :
    ∃ files, getFilesFromDir demoFS "parts/backgrounds/bg1" = .ok files ∧
      files.Perm (([Node.file "x.png" (pic 1024 1024 8), .file "y.png" (pic 640 480 9)].filter
        fun e => !e.isDir && !hasDotPrefix e.name).map
          fun e => pathJoin "parts/backgrounds/bg1" e.name) ∧
      files.Sorted (fun a b => strLt b a = false) ∧
      files = (sortStrings (([Node.file "x.png" (pic 1024 1024 8),
        .file "y.png" (pic 640 480 9)].filter fun e => !e.isDir && !hasDotPrefix e.name).map
          Node.name)).map (pathJoin "parts/backgrounds/bg1") ∧
      ∀ f, f ∈ files ↔
        ∃ n png, Node.file n png ∈ [Node.file "x.png" (pic 1024 1024 8),
          .file "y.png" (pic 640 480 9)] ∧ hasDotPrefix n = false ∧
          f = pathJoin "parts/backgrounds/bg1" n :=
  getFilesFromDir_exact demoFS "parts/backgrounds/bg1"
    [.file "x.png" (pic 1024 1024 8), .file "y.png" (pic 640 480 9)] rfl

/-! ## The recursive walk: auxiliary facts -/

theorem untilSlash_append (a b : List Char) (ha : '/' ∉ a) : untilSlash (a ++ '/' :: b) = a := by
  induction a with
  | nil => simp [untilSlash]
  | cons c cs ih =>
    have hc : c ≠ '/' := fun h => ha (by simp [h])
    have hcs : '/' ∉ cs := fun h => ha (List.mem_cons_of_mem _ h)
    simp [untilSlash, hc, ih hcs]

theorem validName_spec (n : String) (h : validName n = true) : n.data ≠ [] ∧ '/' ∉ n.data := by
  unfold validName at h
  simpa using h

theorem pathBase_pathJoin (d n : String) (h : validName n = true) : pathBase (pathJoin d n) = n := by
  obtain ⟨hne, hns⟩ := validName_spec n h
  have hdata : (pathJoin d n).data = d.data ++ '/' :: n.data := by
    unfold pathJoin
    simp [String.data_append]
  have hrev : (pathJoin d n).data.reverse = n.data.reverse ++ '/' :: d.data.reverse := by
    rw [hdata]
    simp
  have hns' : '/' ∉ n.data.reverse := by simpa using hns
  obtain ⟨c, cs, hcs⟩ := List.exists_cons_of_ne_nil (show n.data.reverse ≠ [] by simpa using hne)
  have hc : c ≠ '/' := by
    intro hc
    apply hns'
    rw [hcs, hc]
    exact List.mem_cons_self _ _
  have hdrop : dropSlashes ((pathJoin d n).data.reverse) = (pathJoin d n).data.reverse := by
    rw [hrev, hcs]
    simp [dropSlashes, hc]
  unfold pathBase
  have hnil : (pathJoin d n).data ≠ [] := by rw [hdata]; simp
  rw [if_neg hnil]
  simp only
  rw [hdrop, hrev, untilSlash_append _ _ hns']
  have : n.data.reverse ≠ [] := by simpa using hne
  rw [if_neg this]
  simp

theorem SubdirAt_mono (es es' : List Node) (h : ∀ x, x ∈ es → x ∈ es') :
    ∀ comps, SubdirAt es comps → SubdirAt es' comps
  | [], hs => by simp [SubdirAt] at hs
  | [c], hs => by
    obtain ⟨sub, hm⟩ := hs
    exact ⟨sub, h _ hm⟩
  | c :: c' :: cs, hs => by
    obtain ⟨sub, hm, hr⟩ := hs
    exact ⟨sub, h _ hm, hr⟩

theorem SubdirAt_cons (es : List Node) (c : String) (sub : List Node) (rest : List String)
    (hm : Node.dir c sub ∈ es) (hr : rest = [] ∨ SubdirAt sub rest) : SubdirAt es (c :: rest) := by
  cases rest with
  | nil => exact ⟨sub, hm⟩
  | cons c' cs =>
    rcases hr with h | h
    · simp at h
    · exact ⟨sub, hm, h⟩

theorem SubdirAt_inv (es : List Node) (comps : List String) (h : SubdirAt es comps) :
    ∃ c sub rest, comps = c :: rest ∧ Node.dir c sub ∈ es ∧ (rest = [] ∨ SubdirAt sub rest) := by
  match comps, h with
  | [c], ⟨sub, hm⟩ => exact ⟨c, sub, [], rfl, hm, Or.inl rfl⟩
  | c :: c' :: cs, ⟨sub, hm, hr⟩ => exact ⟨c, sub, c' :: cs, rfl, hm, Or.inr hr⟩

mutual
theorem walkEntry_mem : ∀ (e : Node), validNode e = true → ∀ (dir p : String),
    (p ∈ walkEntry dir e ↔ ∃ n sub rest, e = .dir n sub ∧ (rest = [] ∨ SubdirAt sub rest) ∧
      (∀ c ∈ n :: rest, hasDotPrefix c = false) ∧ p = joinAll dir (n :: rest))
  | .file n png, _, dir, p => by simp [walkEntry]
  | .dir n sub, hv, dir, p => by
    simp only [validNode, Bool.and_eq_true] at hv
    have ih := walkFn_mem sub hv.2 (pathJoin dir n) p
    simp only [walkEntry, pathBase_pathJoin dir n hv.1]
    constructor
    · intro hp
      by_cases hh : hasDotPrefix n = true
      · simp [hh] at hp
      · have hh' : hasDotPrefix n = false := by simpa using hh
        simp only [hh', Bool.false_eq_true, if_false, List.mem_cons] at hp
        rcases hp with hp | hp
        · exact ⟨n, sub, [], rfl, Or.inl rfl, by simpa using hh', by simp [joinAll, hp]⟩
        · obtain ⟨comps, hs, hvis, hp⟩ := ih.mp hp
          refine ⟨n, sub, comps, rfl, Or.inr hs, ?_, ?_⟩
          · intro c hc
            rcases List.mem_cons.mp hc with rfl | hc
            · exact hh'
            · exact hvis c hc
          · simpa [joinAll] using hp
    · rintro ⟨n', sub', rest, he, hr, hvis, hp⟩
      simp only [Node.dir.injEq] at he
      obtain ⟨rfl, rfl⟩ := he
      have hh' : hasDotPrefix n = false := hvis n (List.mem_cons_self _ _)
      simp only [hh', Bool.false_eq_true, if_false, List.mem_cons]
      rcases hr with rfl | hr
      · left; simpa [joinAll] using hp
      · right
        exact ih.mpr ⟨rest, hr, fun c hc => hvis c (List.mem_cons_of_mem _ hc),
          by simpa [joinAll] using hp⟩
theorem walkFn_mem : ∀ (es : List Node), validEntries es = true → ∀ (dir p : String),
    (p ∈ walkFn dir es ↔ ∃ comps, SubdirAt es comps ∧ (∀ c ∈ comps, hasDotPrefix c = false) ∧
      p = joinAll dir comps)
  | [], _, dir, p => by
    simp only [walkFn, List.not_mem_nil, false_iff]
    rintro ⟨comps, hs, -, -⟩
    obtain ⟨c, sub, rest, -, hm, -⟩ := SubdirAt_inv [] comps hs
    simp at hm
  | e :: es, hv, dir, p => by
    simp only [validEntries, Bool.and_eq_true] at hv
    have ih₁ := walkEntry_mem e hv.1.1 dir p
    have ih₂ := walkFn_mem es hv.2 dir p
    simp only [walkFn, List.mem_append]
    constructor
    · rintro (hp | hp)
      · obtain ⟨n, sub, rest, he, hr, hvis, hp⟩ := ih₁.mp hp
        exact ⟨n :: rest, SubdirAt_cons _ n sub rest (by rw [he]; exact List.mem_cons_self _ _) hr,
          hvis, hp⟩
      · obtain ⟨comps, hs, hvis, hp⟩ := ih₂.mp hp
        exact ⟨comps, SubdirAt_mono es (e :: es) (fun x hx => List.mem_cons_of_mem _ hx) comps hs,
          hvis, hp⟩
    · rintro ⟨comps, hs, hvis, hp⟩
      obtain ⟨c, sub, rest, rfl, hm, hr⟩ := SubdirAt_inv _ comps hs
      rcases List.mem_cons.mp hm with he | hm
      · left
        exact ih₁.mpr ⟨c, sub, rest, he.symm, hr, hvis, hp⟩
      · right
        exact ih₂.mpr ⟨c :: rest, SubdirAt_cons es c sub rest hm hr, hvis, hp⟩
end

theorem joinAll_data : ∀ (comps : List String) (d : String),
    (joinAll d comps).data = d.data ++ tailChars comps
  | [], d => by simp [joinAll, tailChars]
  | c :: cs, d => by
    have ih := joinAll_data cs (pathJoin d c)
    simp only [joinAll, List.foldl_cons] at ih ⊢
    rw [ih]
    simp [pathJoin, String.data_append, tailChars]

theorem untilSlash_self (a : List Char) (ha : '/' ∉ a) : untilSlash a = a := by
  induction a with
  | nil => rfl
  | cons c cs ih =>
    have hc : c ≠ '/' := fun h => ha (by simp [h])
    have hcs : '/' ∉ cs := fun h => ha (List.mem_cons_of_mem _ h)
    simp [untilSlash, hc, ih hcs]

theorem untilSlash_name_tail (n : String) (rest : List String) (h : validName n = true) :
    untilSlash (n.data ++ tailChars rest) = n.data := by
  obtain ⟨-, hns⟩ := validName_spec n h
  cases rest with
  | nil => simpa [tailChars] using untilSlash_self _ hns
  | cons c cs => simpa [tailChars] using untilSlash_append n.data (c.data ++ tailChars cs) hns

theorem validEntries_mem : ∀ (es : List Node), validEntries es = true → ∀ x ∈ es, validNode x = true
  | [], _, x, hx => absurd hx (List.not_mem_nil x)
  | e :: es, hv, x, hx => by
    simp only [validEntries, Bool.and_eq_true] at hv
    rcases List.mem_cons.mp hx with rfl | hx
    · exact hv.1.1
    · exact validEntries_mem es hv.2 x hx

theorem walkFn_first_component (es : List Node) (hv : validEntries es = true) (dir p : String)
    (hp : p ∈ walkFn dir es) :
    ∃ c sub rest, Node.dir c sub ∈ es ∧ validName c = true ∧
      p.data = dir.data ++ '/' :: (c.data ++ tailChars rest) := by
  obtain ⟨comps, hs, -, hpe⟩ := (walkFn_mem es hv dir p).mp hp
  obtain ⟨c, sub, rest, rfl, hm, -⟩ := SubdirAt_inv es comps hs
  have hvc : validName c = true := by
    have := validEntries_mem es hv _ hm
    simp only [validNode, Bool.and_eq_true] at this
    exact this.1
  refine ⟨c, sub, rest, hm, hvc, ?_⟩
  rw [hpe, joinAll_data]
  simp [tailChars]

theorem walkFn_longer (es : List Node) (hv : validEntries es = true) (dir p : String)
    (hp : p ∈ walkFn dir es) : p ≠ dir := by
  obtain ⟨c, sub, rest, -, -, hd⟩ := walkFn_first_component es hv dir p hp
  intro h
  rw [h] at hd
  have := congrArg List.length hd
  simp at this

mutual
theorem walkEntry_nodup : ∀ (e : Node), validNode e = true → ∀ (dir : String),
    (walkEntry dir e).Nodup
  | .file n png, _, dir => by simp [walkEntry]
  | .dir n sub, hv, dir => by
    simp only [validNode, Bool.and_eq_true] at hv
    have ih := walkFn_nodup sub hv.2 (pathJoin dir n)
    simp only [walkEntry]
    split
    · exact List.nodup_nil
    · rw [List.nodup_cons]
      exact ⟨fun hm => walkFn_longer sub hv.2 _ _ hm rfl, ih⟩
theorem walkFn_nodup : ∀ (es : List Node), validEntries es = true → ∀ (dir : String),
    (walkFn dir es).Nodup
  | [], _, dir => by simp [walkFn]
  | e :: es, hv, dir => by
    have hv0 := hv
    simp only [validEntries, Bool.and_eq_true, Bool.not_eq_true', List.any_eq_false,
      beq_iff_eq] at hv
    have ih₁ := walkEntry_nodup e hv.1.1 dir
    have ih₂ := walkFn_nodup es hv.2 dir
    simp only [walkFn]
    rw [List.nodup_append]
    refine ⟨ih₁, ih₂, ?_⟩
    intro p hp₁ hp₂
    have hp₁' : p ∈ walkFn dir [e] := by simpa [walkFn] using hp₁
    have hve : validEntries [e] = true := by simp [validEntries, hv.1.1]
    obtain ⟨c₁, sub₁, rest₁, hm₁, hv₁, hd₁⟩ := walkFn_first_component [e] hve dir p hp₁'
    obtain ⟨c₂, sub₂, rest₂, hm₂, hv₂, hd₂⟩ := walkFn_first_component es hv.2 dir p hp₂
    rw [hd₁] at hd₂
    have hcut := List.append_cancel_left hd₂
    simp only [List.cons.injEq, true_and] at hcut
    have hname : c₁.data = c₂.data := by
      rw [← untilSlash_name_tail c₁ rest₁ hv₁, ← untilSlash_name_tail c₂ rest₂ hv₂, hcut]
    have hc : c₁ = c₂ := String.ext hname
    have he : e = .dir c₁ sub₁ := by
      have h0 : Node.dir c₁ sub₁ = e := by simpa using hm₁
      exact h0.symm
    have := hv.1.2 _ hm₂
    rw [he] at this
    simp only [Node.name] at this
    exact this hc.symm
end

/-- C15: `getAllSubdirectories` is a total function; it fails exactly as
`parts.ReadDir` does on the base path; on a readable base path whose entries
have valid names (not empty, no slash, different between entries of one
directory) it returns the full paths of exactly the descendant directories, at
every depth, none of whose components below the base path starts with a dot,
each once, in ascending lexicographic order of the whole paths, a
rearrangement of the order of the walk. -/
theorem getAllSubdirectories_exact (fs : List Node) (basePath : String) (entries : List Node)
    (h : ReadDir fs basePath = .ok entries) (hv : validEntries entries = true) :
    (∃ dirs, getAllSubdirectories fs basePath = .ok dirs ∧
      (∀ p, p ∈ dirs ↔ ∃ comps, SubdirAt entries comps ∧
        (∀ c ∈ comps, hasDotPrefix c = false) ∧ p = joinAll basePath comps) ∧
      dirs.Nodup ∧ dirs.Sorted (fun a b => strLt b a = false) ∧
      dirs.Perm (walkFn basePath entries)) ∧
    ∀ fs' p e, ReadDir fs' p = .error e → getAllSubdirectories fs' p = .error e := by
  constructor
  · refine ⟨sortStrings (walkFn basePath entries), ?_, ?_, ?_, sortStrings_sorted _,
      sortStrings_perm _⟩
    · simp [getAllSubdirectories, h, bind, Except.bind, pure, Except.pure]
    · intro p
      rw [(sortStrings_perm _).mem_iff]
      exact walkFn_mem entries hv basePath p
    · exact (sortStrings_perm _).nodup_iff.mpr (walkFn_nodup entries hv basePath)
  · intro fs' p e he
    simp [getAllSubdirectories, he, bind, Except.bind]

/-- Witness of C15: below `parts/sets` of a catalog with the directories `a`,
`a/b`, `a-b` and the hidden `.x` with `.x/y`; the sorted result puts `a-b`
before `a/b`, the walk visits `a/b` first. -/
theorem getAllSubdirectories_exact_witness :
    ((∃ dirs, getAllSubdirectories dashFS "parts/sets" = .ok dirs ∧
      (∀ p, p ∈ dirs ↔ ∃ comps,
        SubdirAt [.dir "a" [.dir "b" []], .dir "a-b" [], .dir ".x" [.dir "y" []]] comps ∧
        (∀ c ∈ comps, hasDotPrefix c = false) ∧ p = joinAll "parts/sets" comps) ∧
      dirs.Nodup ∧ dirs.Sorted (fun a b => strLt b a = false) ∧
      dirs.Perm (walkFn "parts/sets"
        [.dir "a" [.dir "b" []], .dir "a-b" [], .dir ".x" [.dir "y" []]])) ∧
    ∀ fs' p e, ReadDir fs' p = .error e → getAllSubdirectories fs' p = .error e) ∧
    getAllSubdirectories dashFS "parts/sets" =
      .ok ["parts/sets/a", "parts/sets/a-b", "parts/sets/a/b"] ∧
    walkFn "parts/sets" [.dir "a" [.dir "b" []], .dir "a-b" [], .dir ".x" [.dir "y" []]] =
      ["parts/sets/a", "parts/sets/a/b", "parts/sets/a-b"] :=
  ⟨getAllSubdirectories_exact dashFS "parts/sets"
    [.dir "a" [.dir "b" []], .dir "a-b" [], .dir ".x" [.dir "y" []]] rfl (by decide),
    by decide, by decide⟩

/-- C12: the list returned by `getListOfFiles`, whatever its length and the
way `sort.Slice` sorts it, is a rearrangement of a list that holds, position
by position, one file for each category directory (the
base path when it lists files, then the directories `getAllSubdirectories`
returns): the lengths agree, and the file of a category is the path of a
visible file entry listed directly in that category directory. -/
theorem one_file_per_category (g : Source) (srt : Sorter) (fs : List Node) (rd rd' : Rand)
    (basePath : String)
    (files : List String) (h : getListOfFiles g srt fs rd basePath = .ok (files, rd')) :
    ∃ dirs chosen subs, getAllSubdirectories fs basePath = .ok subs ∧
      dirs = (if 0 < fileCount fs basePath then basePath :: subs else subs) ∧
      files.Perm chosen ∧ files.length = dirs.length ∧
      List.Forall₂ (fun d f => ∃ entries n png, ReadDir fs d = .ok entries ∧
        Node.file n png ∈ entries ∧ hasDotPrefix n = false ∧ f = pathJoin d n) dirs chosen := by
  unfold getListOfFiles at h
  simp only [bind, Except.bind] at h
  cases hd : categoryDirs fs basePath with
  | error e => simp [hd] at h
  | ok dirs =>
    simp only [hd] at h
    cases hc : chooseFiles g fs dirs rd with
    | error e => simp [hc] at h
    | ok q =>
      obtain ⟨chosen, rd₁⟩ := q
      simp only [hc, pure, Except.pure, Except.ok.injEq, Prod.mk.injEq] at h
      obtain ⟨subs, hs, hdirs⟩ := categoryDirs_spec fs basePath dirs hd
      have hf2 := chooseFiles_forall₂ g fs dirs rd rd₁ chosen hc
      have hperm : files.Perm chosen := by rw [← h.1]; exact sortSlice_perm srt less chosen
      refine ⟨dirs, chosen, subs, hs, hdirs, hperm, ?_, ?_⟩
      · rw [hperm.length_eq]
        exact hf2.length_eq.symm
      · refine hf2.imp ?_
        rintro d f ⟨listing, hl, hmem⟩
        cases hr : ReadDir fs d with
        | error e => simp [getFilesFromDir, hr, bind, Except.bind] at hl
        | ok entries =>
          rw [getFilesFromDir_eq fs d entries hr] at hl
          simp only [Except.ok.injEq] at hl
          rw [← hl, (sortStrings_perm _).mem_iff, mem_filter_file] at hmem
          obtain ⟨n, png, h1, h2, h3⟩ := hmem
          exact ⟨entries, n, png, rfl, h1, h2, h3⟩

/-- Witness of C12: set `set2` of the demo catalog, whose base path lists a
file and which has one visible subdirectory. -/
theorem one_file_per_category_witness :
    ∃ dirs chosen subs, getAllSubdirectories demoFS "parts/sets/set2" = .ok subs ∧
      dirs = (if 0 < fileCount demoFS "parts/sets/set2" then "parts/sets/set2" :: subs else subs) ∧
      ["parts/sets/set2/body/b.png", "parts/sets/set2/readme.png"].Perm chosen ∧
      ["parts/sets/set2/body/b.png", "parts/sets/set2/readme.png"].length = dirs.length ∧
      List.Forall₂ (fun d f => ∃ entries n png, ReadDir demoFS d = .ok entries ∧
        Node.file n png ∈ entries ∧ hasDotPrefix n = false ∧ f = pathJoin d n) dirs chosen :=
  one_file_per_category digitSource demoSorter demoFS ⟨⟨0, 0⟩, []⟩ ⟨⟨0, 0⟩, [1, 1]⟩ "parts/sets/set2"
    ["parts/sets/set2/body/b.png", "parts/sets/set2/readme.png"] (by decide)

/-! ## The token of the specification and the token the comparator reads -/

theorem splitChars_head (sep : Char) : ∀ l : List Char,
    ∃ t, splitChars sep l = untilChar sep l :: t
  | [] => ⟨[], rfl⟩
  | c :: cs => by
    obtain ⟨t, ht⟩ := splitChars_head sep cs
    by_cases hc : c = sep
    · exact ⟨splitChars sep cs, by simp [splitChars, untilChar, hc]⟩
    · exact ⟨t, by simp [splitChars, untilChar, hc, ht]⟩

theorem splitChars_after (sep : Char) : ∀ (l rest : List Char), afterChar sep l = some rest →
    splitChars sep l = untilChar sep l :: splitChars sep rest
  | [], rest, h => by simp [afterChar] at h
  | c :: cs, rest, h => by
    by_cases hc : c = sep
    · simp only [afterChar, hc, if_true, Option.some.injEq] at h
      subst h
      simp [splitChars, untilChar, hc]
    · simp only [afterChar, hc, if_false] at h
      have ih := splitChars_after sep cs rest h
      simp [splitChars, untilChar, hc, ih]

theorem digitsVal_no_hash : ∀ (ds : List Char) (acc n : Nat), digitsVal ds acc = some n → '#' ∉ ds
  | [], _, _, _ => List.not_mem_nil _
  | c :: cs, acc, n, h => by
    simp only [digitsVal] at h
    cases hd : digitVal c with
    | none => simp [hd] at h
    | some d =>
      simp only [hd] at h
      have ih := digitsVal_no_hash cs _ n h
      intro hm
      rcases List.mem_cons.mp hm with hc | hc
      · rw [← hc] at hd
        have hnone : digitVal '#' = none := by decide
        rw [hnone] at hd
        exact Option.noConfusion hd
      · exact ih hc

theorem atoi_no_hash (s : String) (i : Int) (h : atoi s = some i) : '#' ∉ s.data := by
  unfold atoi at h
  split at h
  · simp at h
  · rename_i ds heq
    rw [heq]
    split at h
    · simp at h
    · cases hd : digitsVal ds 0 with
      | none => simp [hd] at h
      | some n =>
        have := digitsVal_no_hash ds 0 n hd
        intro hm
        rcases List.mem_cons.mp hm with hc | hc
        · exact absurd hc (by decide)
        · exact this hc
  · rename_i ds heq
    rw [heq]
    split at h
    · simp at h
    · cases hd : digitsVal ds 0 with
      | none => simp [hd] at h
      | some n =>
        have := digitsVal_no_hash ds 0 n hd
        intro hm
        rcases List.mem_cons.mp hm with hc | hc
        · exact absurd hc (by decide)
        · exact this hc
  · cases hd : digitsVal s.data 0 with
    | none => simp [hd] at h
    | some n => exact digitsVal_no_hash s.data 0 n hd

theorem untilChar_dot_hash : ∀ l : List Char, '#' ∉ untilChar '.' l →
    untilChar '.' (untilChar '#' l) = untilChar '.' l
  | [], _ => rfl
  | c :: cs, h => by
    by_cases hdot : c = '.'
    · subst hdot
      simp [untilChar]
    · have hne : c ≠ '#' := by
        intro hc
        apply h
        simp [untilChar, hdot, hc]
      have hrest : '#' ∉ untilChar '.' cs := by
        intro hm
        apply h
        simp [untilChar, hdot, hm]
      simp [untilChar, hdot, hne, untilChar_dot_hash cs hrest]

/-- Whenever the text after the first `#` of the base name up to the next `.`
parses as an integer, the comparator reads exactly that integer. -/
theorem numToken_of_specToken (file : String) (i : Int) (h : specToken file = some i) :
    numToken file = some i := by
  unfold specToken at h
  cases ha : afterChar '#' (pathBase file).data with
  | none => simp [ha] at h
  | some rest =>
    simp only [ha] at h
    have hno : '#' ∉ untilChar '.' rest := atoi_no_hash _ i h
    obtain ⟨t, ht⟩ := splitChars_head '#' rest
    obtain ⟨t', ht'⟩ := splitChars_head '.' (untilChar '#' rest)
    unfold numToken stringsSplit
    rw [splitChars_after '#' _ rest ha, ht]
    simp only [List.map_cons, ht', untilChar_dot_hash rest hno]
    exact h

end Robo
